import Mathlib

/-!
Verification development for the structured Bitcoin-Script builder, stack
analyzer and chunker (sources: src/builder.rs, src/analyzer.rs, src/chunker.rs,
src/lib.rs of the repository).  Rust panics and failed assertions are modelled
as `none` results; machine integers `i32`/`i64` are modelled as `Int` and
`usize` as `Nat` (the source never gets near the word-size bounds on the
quantities involved; `usize` subtraction that would underflow is modelled by
truncated `Nat` subtraction, which matches the behaviour the repository's own
test-suite pins down for `tolerance > target_chunk_size`).
-/

namespace BitVMScript

/-! ## Opcode byte values (bitcoin::opcodes::all) -/

def OP_PUSHBYTES_0 : Nat := 0x00
def OP_PUSHDATA1 : Nat := 0x4c
def OP_PUSHDATA2 : Nat := 0x4d
def OP_PUSHDATA4 : Nat := 0x4e
def OP_PUSHNUM_NEG1 : Nat := 0x4f
def OP_RESERVED : Nat := 0x50
def OP_PUSHNUM_1 : Nat := 0x51
def OP_PUSHNUM_16 : Nat := 0x60
def OP_NOP : Nat := 0x61
def OP_IF : Nat := 0x63
def OP_NOTIF : Nat := 0x64
def OP_ELSE : Nat := 0x67
def OP_ENDIF : Nat := 0x68
def OP_VERIFY : Nat := 0x69
def OP_TOALTSTACK : Nat := 0x6b
def OP_FROMALTSTACK : Nat := 0x6c
def OP_2DROP : Nat := 0x6d
def OP_2DUP : Nat := 0x6e
def OP_3DUP : Nat := 0x6f
def OP_2OVER : Nat := 0x70
def OP_2ROT : Nat := 0x71
def OP_2SWAP : Nat := 0x72
def OP_IFDUP : Nat := 0x73
def OP_DEPTH : Nat := 0x74
def OP_DROP : Nat := 0x75
def OP_DUP : Nat := 0x76
def OP_NIP : Nat := 0x77
def OP_OVER : Nat := 0x78
def OP_PICK : Nat := 0x79
def OP_ROLL : Nat := 0x7a
def OP_ROT : Nat := 0x7b
def OP_SWAP : Nat := 0x7c
def OP_TUCK : Nat := 0x7d
def OP_SIZE : Nat := 0x82
def OP_EQUAL : Nat := 0x87
def OP_EQUALVERIFY : Nat := 0x88
def OP_1ADD : Nat := 0x8b
def OP_1SUB : Nat := 0x8c
def OP_NEGATE : Nat := 0x8f
def OP_ABS : Nat := 0x90
def OP_NOT : Nat := 0x91
def OP_0NOTEQUAL : Nat := 0x92
def OP_ADD : Nat := 0x93
def OP_SUB : Nat := 0x94
def OP_BOOLAND : Nat := 0x9a
def OP_BOOLOR : Nat := 0x9b
def OP_NUMEQUAL : Nat := 0x9c
def OP_NUMEQUALVERIFY : Nat := 0x9d
def OP_NUMNOTEQUAL : Nat := 0x9e
def OP_LESSTHAN : Nat := 0x9f
def OP_GREATERTHAN : Nat := 0xa0
def OP_LESSTHANOREQUAL : Nat := 0xa1
def OP_GREATERTHANOREQUAL : Nat := 0xa2
def OP_MIN : Nat := 0xa3
def OP_MAX : Nat := 0xa4
def OP_WITHIN : Nat := 0xa5
def OP_RIPEMD160 : Nat := 0xa6
def OP_SHA1 : Nat := 0xa7
def OP_SHA256 : Nat := 0xa8
def OP_HASH160 : Nat := 0xa9
def OP_HASH256 : Nat := 0xaa
def OP_CHECKSIG : Nat := 0xac
def OP_CHECKSIGVERIFY : Nat := 0xad
def OP_NOP1 : Nat := 0xb0
def OP_CLTV : Nat := 0xb1
def OP_CSV : Nat := 0xb2
def OP_NOP4 : Nat := 0xb3
def OP_NOP10 : Nat := 0xb9

/-! ## Script instructions

A `ScriptBuf` is modelled at the granularity at which the source code reads it
back (`bitcoin::script::Instruction`): a sequence of single-opcode
instructions and data pushes.  A byte value `b ≤ 75` written by `push_opcode`
(only `OP_0 = OP_PUSHBYTES_0` is ever pushed that way by this library) denotes
the same instruction stream and the same bytes as an empty data push, and the
analyzer treats the two identically, so keeping it as `Instr.op 0` is
faithful. -/

inductive Instr where
  | op (code : Nat)
  | pushBytes (data : List Nat)
deriving Repr, DecidableEq

/-- Byte encoding of a data push: length prefix as produced by
`ScriptBuf::push_slice` (external collaborator, rust-bitcoin). -/
def pushPrefix (n : Nat) : List Nat :=
  if n ≤ 75 then [n]
  else if n ≤ 0xff then [OP_PUSHDATA1, n]
  else if n ≤ 0xffff then [OP_PUSHDATA2, n % 256, n / 256]
  else [OP_PUSHDATA4, n % 256, n / 256 % 256, n / 256 / 256 % 256, n / 256 / 256 / 256 % 256]

/-- Byte encoding of one instruction. -/
def Instr.encode : Instr → List Nat
  | .op code => [code]
  | .pushBytes data => pushPrefix data.length ++ data

/-- Encoded byte length of one instruction. -/
def Instr.encLen (i : Instr) : Nat := i.encode.length

/-- Byte image of a `ScriptBuf` (`ScriptBuf::as_bytes`). -/
def scriptBytes (buf : List Instr) : List Nat := (buf.map Instr.encode).flatten

/-- Byte length of a `ScriptBuf` (`ScriptBuf::len`). -/
def scriptLen (buf : List Instr) : Nat := (scriptBytes buf).length

/-! ## read_scriptint / write_scriptint (bitcoin::script, external collaborator)

`write_scriptint` emits the little-endian sign-magnitude encoding of an
integer; `read_scriptint` decodes it, rejecting encodings longer than 4 bytes
or non-minimal ones. -/

/-- The `while abs > 0xFF` loop of `write_scriptint`: returns the low bytes
emitted by the loop together with the final value of `abs` (which is `≤ 0xFF`,
and positive whenever the input was).  The first argument is structural fuel;
any fuel at least the starting value of `abs` is sufficient. -/
def magLoop : Nat → Nat → List Nat × Nat
  | 0, abs => ([], abs)
  | fuel + 1, abs =>
      if abs > 0xff then
        let r := magLoop fuel (abs / 256)
        ((abs % 256) :: r.1, r.2)
      else ([], abs)

/-- `bitcoin::script::write_scriptint` (as the list of bytes written). -/
def write_scriptint (n : Int) : List Nat :=
  if n = 0 then []
  else
    let r := magLoop n.natAbs n.natAbs
    if 0x80 ≤ r.2 then
      r.1 ++ [r.2, if n < 0 then 0x80 else 0]
    else
      r.1 ++ [if n < 0 then r.2 + 0x80 else r.2]

/-- Little-endian value of a byte list. -/
def leVal : List Nat → Nat
  | [] => 0
  | b :: rest => b + 256 * leVal rest

/-- Unbounded sign-magnitude decoding of a scriptint byte string
(`scriptint_parse` without the 4-byte limit): little-endian magnitude with the
sign carried in the high bit of the last byte. -/
def scriptint_parse (v : List Nat) : Int :=
  match v.getLast? with
  | none => 0
  | some last =>
      if 0x80 ≤ last % 256 then
        -((leVal v : Int) - (0x80 * 256 ^ (v.length - 1) : Nat))
      else (leVal v : Int)

/-- `bitcoin::script::read_scriptint`: `none` models the `Err` results
(numeric overflow for encodings longer than 4 bytes, and the non-minimal-push
rejection). -/
def read_scriptint (v : List Nat) : Option Int :=
  match v.getLast? with
  | none => some 0
  | some last =>
      if v.length > 4 then none
      else if last % 0x80 = 0 ∧
          (v.length ≤ 1 ∨ v.getD (v.length - 2) 0 % 256 < 0x80) then none
      else some (scriptint_parse v)

/-! ## StackStatus and the stack analyzer (src/analyzer.rs) -/

/-- `analyzer.rs` lines 10-16: the stack-effect summary of a fragment. -/
structure StackStatus where
  deepest_stack_accessed : Int := 0
  stack_changed : Int := 0
  deepest_altstack_accessed : Int := 0
  altstack_changed : Int := 0
deriving Repr, DecidableEq

instance : Inhabited StackStatus := ⟨{}⟩

/-- `analyzer.rs` lines 202-209 (`plain_stack_status`). -/
def plain_stack_status (x y : Int) : StackStatus :=
  { deepest_stack_accessed := x, stack_changed := y,
    deepest_altstack_accessed := 0, altstack_changed := 0 }

/-- `analyzer.rs` lines 190-200 (`min_status`). -/
def min_status (x y : StackStatus) : StackStatus :=
  { deepest_altstack_accessed :=
      min x.deepest_altstack_accessed y.deepest_altstack_accessed,
    deepest_stack_accessed :=
      min x.deepest_stack_accessed y.deepest_stack_accessed,
    stack_changed := x.stack_changed,
    altstack_changed := x.altstack_changed }

/-- The accumulation formula of `StackAnalyzer::stack_change`
(`analyzer.rs` lines 327-349) applied to one target status.  The two
`assert!(elements_on_intermediate_stack >= 0)` lines are the source's internal
"this means there is a bug" sanity checks on the running status; they are kept
out of the value-level model and surface as the well-formedness hypotheses
(`0 ≤ stack_changed - deepest_stack_accessed`) of the theorems below. -/
def accum (st eff : StackStatus) : StackStatus :=
  let i := st.deepest_stack_accessed
  let j := st.stack_changed
  let x := st.deepest_altstack_accessed
  let y := st.altstack_changed
  { deepest_stack_accessed :=
      i + min 0 (eff.deepest_stack_accessed + (j - i)),
    stack_changed := j + eff.stack_changed,
    deepest_altstack_accessed :=
      x + min 0 (eff.deepest_altstack_accessed + (y - x)),
    altstack_changed := y + eff.altstack_changed }

/-- `analyzer.rs` lines 35-40 (`IfStackEle`). -/
inductive IfStackEle where
  | ifFlow (s : StackStatus)
  | elseFlow (s1 s2 : StackStatus)
deriving Repr, DecidableEq

/-- `analyzer.rs` lines 42-51 (`StackAnalyzer`), without the two pure
diagnostics fields `debug_script` / `debug_position` (they feed only panic
messages). -/
structure StackAnalyzer where
  stack_status : StackStatus := {}
  if_stack : List IfStackEle := []
  last_constant : Option Int := none
deriving Repr, DecidableEq

instance : Inhabited StackAnalyzer := ⟨{}⟩

/-- `StackAnalyzer::stack_change` (`analyzer.rs` lines 321-350): apply an
effect to the innermost open accumulator (top of `if_stack`), or to the base
status when no conditional is open. -/
def stack_change (a : StackAnalyzer) (eff : StackStatus) : StackAnalyzer :=
  match a.if_stack with
  | [] => { a with stack_status := accum a.stack_status eff }
  | .ifFlow s :: rest => { a with if_stack := .ifFlow (accum s eff) :: rest }
  | .elseFlow s1 s2 :: rest =>
      { a with if_stack := .elseFlow s1 (accum s2 eff) :: rest }

/-- `StackAnalyzer::opcode_stack_table` (`analyzer.rs` lines 354-451).
`none` models the `panic!` arms ("depend on the data on the stack" and
"not implemantation"). -/
def opcode_stack_table (data : Nat) : Option StackStatus :=
  let main : Option (Int × Int) :=
    if data ≤ 0x4b ∨ data = OP_PUSHDATA1 ∨ data = OP_PUSHDATA2 ∨
        data = OP_PUSHDATA4 then some (0, 1)
    else if data = OP_PUSHNUM_NEG1 ∨
        (OP_PUSHNUM_1 ≤ data ∧ data ≤ OP_PUSHNUM_16) then some (0, 1)
    else if data = OP_NOP then some (0, 0)
    else if data = OP_IF then some (-1, -1)
    else if data = OP_NOTIF then some (-1, -1)
    else if data = OP_ELSE then none
    else if data = OP_ENDIF then none
    else if data = OP_VERIFY then some (-1, -1)
    else if data = OP_TOALTSTACK then some (-1, -1)
    else if data = OP_FROMALTSTACK then some (0, 1)
    else if data = OP_2DROP then some (-2, -2)
    else if data = OP_2DUP then some (-2, 2)
    else if data = OP_3DUP then some (-3, 3)
    else if data = OP_2OVER then some (-4, 2)
    else if data = OP_2ROT then some (-3, 0)
    else if data = OP_2SWAP then some (-4, 0)
    else if data = OP_IFDUP then none
    else if data = OP_DEPTH then some (0, 1)
    else if data = OP_DROP then some (-1, -1)
    else if data = OP_DUP then some (-1, 1)
    else if data = OP_NIP then some (-2, -1)
    else if data = OP_OVER then some (-2, 1)
    else if data = OP_PICK then none
    else if data = OP_ROLL then none
    else if data = OP_ROT then some (-3, 0)
    else if data = OP_SWAP then some (-2, 0)
    else if data = OP_TUCK then some (-2, 1)
    else if data = OP_SIZE then some (-1, 1)
    else if data = OP_EQUAL then some (-2, -1)
    else if data = OP_EQUALVERIFY then some (-2, -2)
    else if data = OP_1ADD ∨ data = OP_1SUB ∨ data = OP_NEGATE ∨
        data = OP_ABS ∨ data = OP_NOT ∨ data = OP_0NOTEQUAL then some (-1, 0)
    else if data = OP_ADD ∨ data = OP_SUB ∨ data = OP_BOOLAND ∨
        data = OP_BOOLOR ∨ data = OP_NUMEQUAL then some (-2, -1)
    else if data = OP_NUMEQUALVERIFY then some (-2, -2)
    else if data = OP_NUMNOTEQUAL ∨ data = OP_LESSTHAN ∨
        data = OP_GREATERTHAN ∨ data = OP_LESSTHANOREQUAL ∨
        data = OP_GREATERTHANOREQUAL then some (-2, -1)
    else if data = OP_MIN ∨ data = OP_MAX then some (-2, -1)
    else if data = OP_WITHIN then some (-3, -2)
    else if data = OP_RIPEMD160 ∨ data = OP_SHA1 ∨ data = OP_SHA256 ∨
        data = OP_HASH160 ∨ data = OP_HASH256 then some (-1, 0)
    else if data = OP_CHECKSIG then some (-2, -1)
    else if data = OP_CHECKSIGVERIFY then some (-2, -2)
    else if data = OP_NOP1 ∨ (OP_NOP4 ≤ data ∧ data ≤ OP_NOP10) then
      some (0, 0)
    else if data = OP_CLTV ∨ data = OP_CSV then some (1, 1)
    else none
  let alt : Int × Int :=
    if data = OP_FROMALTSTACK then (-1, -1)
    else if data = OP_TOALTSTACK then (0, 1)
    else (0, 0)
  main.map fun ij =>
    { deepest_stack_accessed := ij.1, stack_changed := ij.2,
      deepest_altstack_accessed := alt.1, altstack_changed := alt.2 }

/-- The trailing `match opcode` of `StackAnalyzer::handle_opcode`
(`analyzer.rs` lines 305-313): maintenance of the `last_constant`
side channel. -/
def lc_update (lc : Option Int) (opcode : Nat) : Option Int :=
  if OP_PUSHNUM_1 ≤ opcode ∧ opcode ≤ OP_PUSHNUM_16 then
    some (Int.ofNat (opcode - 0x50))
  else if opcode = OP_DUP then lc
  else if opcode = OP_PUSHBYTES_0 then some 0
  else none

/-- The leading `match opcode` of `StackAnalyzer::handle_opcode`
(`analyzer.rs` lines 222-301): conditional flow, PICK/ROLL resolution and the
generic table case.  `none` models the source's panics (`OP_RESERVED` debug
marker, `ELSE`/`ENDIF` with no open conditional, branch-mismatch assertion
failures, `PICK`/`ROLL` with unknown operand, unimplemented opcodes). -/
def handle_opcode_flow (a : StackAnalyzer) (opcode : Nat) :
    Option StackAnalyzer :=
  if opcode = OP_IF ∨ opcode = OP_NOTIF then
    match opcode_stack_table opcode with
    | none => none
    | some eff =>
        let a2 := stack_change a eff
        some { a2 with if_stack := .ifFlow {} :: a2.if_stack }
  else if opcode = OP_RESERVED then none
  else if opcode = OP_ELSE then
    match a.if_stack with
    | [] => none
    | .ifFlow i :: rest =>
        some { a with if_stack := .elseFlow i {} :: rest }
    | .elseFlow _ _ :: _ => none
  else if opcode = OP_ENDIF then
    match a.if_stack with
    | [] => none
    | .ifFlow st :: rest =>
        if st.stack_changed = 0 ∧ st.altstack_changed = 0 then
          some (stack_change { a with if_stack := rest } st)
        else none
    | .elseFlow s1 s2 :: rest =>
        if s1.stack_changed = s2.stack_changed ∧
            s1.altstack_changed = s2.altstack_changed then
          some (stack_change { a with if_stack := rest } (min_status s1 s2))
        else none
  else if opcode = OP_PICK then
    match a.last_constant with
    | some x => some (stack_change a (plain_stack_status (-(x + 1 + 1)) 0))
    | none => none
  else if opcode = OP_ROLL then
    match a.last_constant with
    | some x => some (stack_change a (plain_stack_status (-(x + 1 + 1)) (-1)))
    | none => none
  else
    match opcode_stack_table opcode with
    | none => none
    | some eff => some (stack_change a eff)

/-- `StackAnalyzer::handle_opcode` (`analyzer.rs` lines 220-314). -/
def handle_opcode (a : StackAnalyzer) (opcode : Nat) : Option StackAnalyzer :=
  (handle_opcode_flow a opcode).map fun a2 =>
    { a2 with last_constant := lc_update a.last_constant opcode }

/-- `StackAnalyzer::handle_push_slice` (`analyzer.rs` lines 177-188): a data
push contributes `(0, +1)`; the `last_constant` side channel is set for a
decodable value in `0..=1000`, cleared for any other decodable value, and left
unchanged when `read_scriptint` fails. -/
def handle_push_slice (a : StackAnalyzer) (bytes : List Nat) : StackAnalyzer :=
  let lc :=
    match read_scriptint bytes with
    | some x => if 0 ≤ x ∧ x ≤ 1000 then some x else none
    | none => a.last_constant
  let a2 := { a with last_constant := lc }
  stack_change a2 (plain_stack_status 0 1)

/-- One instruction of the `block_script.instructions()` loop inside
`StackAnalyzer::merge_script` (`analyzer.rs` lines 156-171). -/
def step_instr (a : StackAnalyzer) : Instr → Option StackAnalyzer
  | .op code => handle_opcode a code
  | .pushBytes data => some (handle_push_slice a data)

/-- Running the analyzer over the instructions of one `ScriptBuf`. -/
def run_buf (a : StackAnalyzer) : List Instr → Option StackAnalyzer
  | [] => some a
  | i :: rest =>
      match step_instr a i with
      | none => none
      | some a2 => run_buf a2 rest

/-- `StackAnalyzer::get_status` (`analyzer.rs` lines 316-319): the final
status, defined only when the if-stack is empty. -/
def get_status (a : StackAnalyzer) : Option StackStatus :=
  if a.if_stack = [] then some a.stack_status else none

/-! ## StructuredScript (src/builder.rs, with the owned `script_map` of
src/lib.rs that src/chunker.rs reads through `builder.script_map`; the
thread-local registry of builder.rs implements the same lookup discipline). -/

/-- `builder.rs` lines 37-41 (`Block`). -/
inductive Block where
  | call (id : Nat)
  | script (buf : List Instr)
deriving Repr, DecidableEq

/-- `builder.rs` lines 50-60 (`StructuredScript`), without the cosmetic
`debug_identifier`, and with the owned `script_map : hash → body` of the
`lib.rs` `Builder` that `chunker.rs` dereferences. -/
inductive StructuredScript where
  | mk (size : Nat)
       (stack_hint : Option StackStatus)
       (num_unclosed_ifs : Int)
       (unclosed_if_positions : List Nat)
       (extra_endif_positions : List Nat)
       (max_if_interval : Nat × Nat)
       (blocks : List Block)
       (script_map : List (Nat × StructuredScript))
deriving Repr

namespace StructuredScript

def size : StructuredScript → Nat
  | .mk sz _ _ _ _ _ _ _ => sz

def stack_hint : StructuredScript → Option StackStatus
  | .mk _ h _ _ _ _ _ _ => h

def num_unclosed_ifs : StructuredScript → Int
  | .mk _ _ n _ _ _ _ _ => n

def unclosed_if_positions : StructuredScript → List Nat
  | .mk _ _ _ u _ _ _ _ => u

def extra_endif_positions : StructuredScript → List Nat
  | .mk _ _ _ _ e _ _ _ => e

def max_if_interval : StructuredScript → Nat × Nat
  | .mk _ _ _ _ _ m _ _ => m

def blocks : StructuredScript → List Block
  | .mk _ _ _ _ _ _ b _ => b

def script_map : StructuredScript → List (Nat × StructuredScript)
  | .mk _ _ _ _ _ _ _ m => m

end StructuredScript

/-- Lookup in an owned script map (`HashMap::get`). -/
def map_get (id : Nat) : List (Nat × StructuredScript) →
    Option StructuredScript
  | [] => none
  | (k, s) :: rest => if k = id then some s else map_get id rest

/-- `HashMap::contains_key`. -/
def map_contains (id : Nat) (m : List (Nat × StructuredScript)) : Bool :=
  (map_get id m).isSome

/-- `StructuredScript::new` (`builder.rs` lines 76-88). -/
def SS.new : StructuredScript := .mk 0 none 0 [] [] (0, 0) [] []

/-- `StructuredScript::len` (`builder.rs` lines 90-92). -/
def SS.len (s : StructuredScript) : Nat := s.size

/-- `StructuredScript::contains_flow_op` (`builder.rs` lines 94-98). -/
def contains_flow_op (s : StructuredScript) : Bool :=
  !(s.unclosed_if_positions.isEmpty && s.extra_endif_positions.isEmpty &&
    decide (s.max_if_interval = (0, 0)))

/-- `StructuredScript::is_script_buf` (`builder.rs` lines 100-102). -/
def is_script_buf (s : StructuredScript) : Bool :=
  match s.blocks with
  | [Block.script _] => true
  | _ => false

/-- `StructuredScript::update_max_interval` (`builder.rs` lines 165-169). -/
def update_max_interval (m : Nat × Nat) (start e : Nat) : Nat × Nat :=
  if e - start > m.2 - m.1 then (start, e) else m

/-- The content hash of `builder.rs` lines 62-73 (`Hash` over `size` and
`blocks`, then `DefaultHasher`).  The concrete 64-bit hasher is replaced by a
cheap deterministic digest of the same hashed data; as in the source,
distinct fragments are assumed (there: with overwhelming probability, here:
as an explicit hypothesis or by computation) to receive distinct ids. -/
def hashList (l : List Nat) : Nat := l.foldl (fun a b => a * 1000003 + b + 1) 7

def blockSer : Block → List Nat
  | .call id => [0, id]
  | .script buf => [1, (scriptBytes buf).length] ++ scriptBytes buf

def calculate_hash (s : StructuredScript) : Nat :=
  hashList (s.size :: (s.blocks.map blockSer).flatten)

/-- `StructuredScript::get_script_block` + appending one instruction: the
instruction lands in the trailing `Script` block if there is one, otherwise in
a fresh `Script` block (`builder.rs` lines 149-163). -/
def append_to_script_block (bs : List Block) (i : Instr) : List Block :=
  match bs.getLast? with
  | some (Block.script buf) => bs.dropLast ++ [Block.script (buf ++ [i])]
  | _ => bs ++ [Block.script [i]]

/-- `StructuredScript::push_opcode` (`builder.rs` lines 183-207). -/
def push_opcode (s : StructuredScript) (data : Nat) : StructuredScript :=
  let sz := s.size
  let upd :
      Int × List Nat × List Nat × (Nat × Nat) :=
    if data = OP_IF ∨ data = OP_NOTIF then
      (s.num_unclosed_ifs + 1, s.unclosed_if_positions ++ [sz],
        s.extra_endif_positions, s.max_if_interval)
    else if data = OP_ENDIF then
      match s.unclosed_if_positions.getLast? with
      | some pos =>
          (s.num_unclosed_ifs - 1, s.unclosed_if_positions.dropLast,
            s.extra_endif_positions, update_max_interval s.max_if_interval pos sz)
      | none =>
          (s.num_unclosed_ifs - 1, s.unclosed_if_positions,
            s.extra_endif_positions ++ [sz], s.max_if_interval)
    else
      (s.num_unclosed_ifs, s.unclosed_if_positions, s.extra_endif_positions,
        s.max_if_interval)
  .mk (sz + 1) s.stack_hint upd.1 upd.2.1 upd.2.2.1 upd.2.2.2
    (append_to_script_block s.blocks (Instr.op data)) s.script_map

/-- The instruction walk of `StructuredScript::push_script`
(`builder.rs` lines 209-244) over the decoded instructions of `data`,
accumulating `(num_unclosed_ifs, unclosed, extra, max_interval, pos)`.
`pos` advances by 1 for an opcode and by `len + 1` for a push, exactly as in
the source (which therefore puts the length assertion at risk only for
`PUSHDATA`-prefixed pushes; that diagnostic assertion is not modelled). -/
def push_script_walk (base : Nat) :
    Int × List Nat × List Nat × (Nat × Nat) × Nat → List Instr →
    Int × List Nat × List Nat × (Nat × Nat) × Nat
  | acc, [] => acc
  | (num, unclosed, extra, maxi, pos), i :: rest =>
      let acc2 : Int × List Nat × List Nat × (Nat × Nat) × Nat :=
        match i with
        | .op code =>
            if code = OP_IF ∨ code = OP_NOTIF then
              (num + 1, unclosed ++ [base + pos], extra, maxi, pos + 1)
            else if code = OP_ENDIF then
              match unclosed.getLast? with
              | some p =>
                  (num - 1, unclosed.dropLast, extra,
                    update_max_interval maxi p (base + pos), pos + 1)
              | none =>
                  (num - 1, unclosed, extra ++ [base + pos], maxi, pos + 1)
            else (num, unclosed, extra, maxi, pos + 1)
        | .pushBytes bs => (num, unclosed, extra, maxi, pos + bs.length + 1)
      push_script_walk base acc2 rest

/-- `StructuredScript::push_script` (`builder.rs` lines 209-244). -/
def push_script (s : StructuredScript) (data : List Instr) : StructuredScript :=
  let w := push_script_walk s.size
    (s.num_unclosed_ifs, s.unclosed_if_positions, s.extra_endif_positions,
      s.max_if_interval, 0) data
  .mk (s.size + scriptLen data) s.stack_hint w.1 w.2.1 w.2.2.1 w.2.2.2.1
    (s.blocks ++ [Block.script data]) s.script_map

/-- The if-closing loop of `StructuredScript::push_env_script`
(`builder.rs` lines 249-263): pair the last `k` pending `IF` positions of
`self` with the last `k` orphan `ENDIF` positions of `data` (in that order),
folding `update_max_interval` over the pairs. -/
def close_ifs_max (m : Nat × Nat) (sz : Nat) (u e : List Nat) : Nat × Nat :=
  (u.reverse.zip e.reverse).foldl
    (fun acc p => update_max_interval acc p.1 (p.2 + sz)) m

/-- `StructuredScript::push_env_script` (`builder.rs` lines 246-279), with
registration into the owned script map (first writer wins, `lib.rs`
lines 270-279 / `builder.rs` lines 21-26). -/
def push_env_script (s data : StructuredScript) : StructuredScript :=
  let k := min s.unclosed_if_positions.length data.extra_endif_positions.length
  let maxi1 := close_ifs_max s.max_if_interval s.size
    (s.unclosed_if_positions.drop (s.unclosed_if_positions.length - k))
    (data.extra_endif_positions.drop (data.extra_endif_positions.length - k))
  let maxi2 := update_max_interval maxi1 (s.size + data.max_if_interval.1)
    (s.size + data.max_if_interval.2)
  let unclosed := s.unclosed_if_positions.take
      (s.unclosed_if_positions.length - k) ++
    data.unclosed_if_positions.map (· + s.size)
  let extra := s.extra_endif_positions ++
    (data.extra_endif_positions.take (data.extra_endif_positions.length - k)).map
      (· + s.size)
  let id := calculate_hash data
  .mk (s.size + data.size) s.stack_hint
    (s.num_unclosed_ifs + data.num_unclosed_ifs) unclosed extra maxi2
    (s.blocks ++ [Block.call id])
    (if map_contains id s.script_map then s.script_map
     else s.script_map ++ [(id, data)])

/-- `StructuredScript::push_slice` (`builder.rs` lines 428-434). -/
def push_slice (s : StructuredScript) (data : List Nat) : StructuredScript :=
  .mk (s.size + (Instr.pushBytes data).encLen) s.stack_hint s.num_unclosed_ifs
    s.unclosed_if_positions s.extra_endif_positions s.max_if_interval
    (append_to_script_block s.blocks (Instr.pushBytes data)) s.script_map

/-- `StructuredScript::push_int_non_minimal` (`builder.rs` lines 422-426). -/
def push_int_non_minimal (s : StructuredScript) (data : Int) :
    StructuredScript :=
  push_slice s (write_scriptint data)

/-- `StructuredScript::push_int` (`builder.rs` lines 407-421). -/
def push_int (s : StructuredScript) (data : Int) : StructuredScript :=
  if data = -1 ∨ (1 ≤ data ∧ data ≤ 16) then
    push_opcode s (data - 1 + 0x51).toNat
  else if data = 0 then
    push_opcode s OP_PUSHBYTES_0
  else
    push_int_non_minimal s data

/-- `StructuredScript::add_stack_hint` (`builder.rs` lines 381-390). -/
def add_stack_hint (s : StructuredScript) (access changed : Int) :
    StructuredScript :=
  let h :=
    match s.stack_hint with
    | some hint =>
        { hint with stack_changed := changed,
                    deepest_stack_accessed := access }
    | none => plain_stack_status access changed
  .mk s.size (some h) s.num_unclosed_ifs s.unclosed_if_positions
    s.extra_endif_positions s.max_if_interval s.blocks s.script_map

/-! ## Compilation (builder.rs lines 281-362 / lib.rs lines 281-350)

Recursion through the script map is bounded by explicit fuel (the source's
recursion is bounded by the construction discipline: a registered script can
only call scripts registered strictly earlier). -/

/-- Plain (cache-free) flattening of a block list to bytes: what
`compile_to_bytes` computes on a cold cache, and the reference semantics the
cache is measured against.  `none` models the `expect`-panic on a missing
script-map entry and fuel exhaustion (fuel strictly decreases at every
recursive call so that the definition reduces by computation). -/
def compile_blocks : Nat → List (Nat × StructuredScript) → List Block →
    Option (List Nat)
  | _, _, [] => some []
  | 0, _, _ :: _ => none
  | fuel + 1, smap, Block.script buf :: rest =>
      (compile_blocks fuel smap rest).map fun tail => scriptBytes buf ++ tail
  | fuel + 1, smap, Block.call id :: rest =>
      match map_get id smap with
      | none => none
      | some sub =>
          match compile_blocks fuel sub.script_map sub.blocks with
          | none => none
          | some bytes =>
              (compile_blocks fuel smap rest).map fun tail =>
                bytes ++ tail

/-- Cache-free compilation of a structured script. -/
def compile_plain (fuel : Nat) (s : StructuredScript) : Option (List Nat) :=
  compile_blocks fuel s.script_map s.blocks

/-- `StructuredScript::compile_to_bytes` (`builder.rs` lines 283-340):
the accumulator `script` is the output buffer, `cache` maps a call id to the
offset at which that script was first emitted; on a cache hit the source
copies `called_script.len()` bytes starting at the cached offset instead of
recompiling (the capacity assertion guarding the unsafe copy is an
internal-consistency check subsumed here by the size hypotheses of the
theorems). -/
def compile_to_bytes : Nat → List (Nat × StructuredScript) → List Block →
    List Nat → List (Nat × Nat) → Option (List Nat × List (Nat × Nat))
  | _, _, [], script, cache => some (script, cache)
  | 0, _, _ :: _, _, _ => none
  | fuel + 1, smap, Block.script buf :: rest, script, cache =>
      compile_to_bytes fuel smap rest (script ++ scriptBytes buf) cache
  | fuel + 1, smap, Block.call id :: rest, script, cache =>
      match map_get id smap with
      | none => none
      | some sub =>
          match cache.lookup id with
          | some called_start =>
              let seg := (script.drop called_start).take sub.size
              compile_to_bytes fuel smap rest (script ++ seg) cache
          | none =>
              let called_script_start := script.length
              match compile_to_bytes fuel sub.script_map sub.blocks script
                  cache with
              | none => none
              | some (script2, cache2) =>
                  compile_to_bytes fuel smap rest script2
                    ((id, called_script_start) :: cache2)

/-- `StructuredScript::compile` (`builder.rs` lines 342-362), without the
final minimal-pushes re-verification pass (a self-check that re-decodes the
produced bytes; it does not alter the produced value). -/
def compile (fuel : Nat) (s : StructuredScript) : Option (List Nat) :=
  (compile_to_bytes fuel s.script_map s.blocks [] []).map Prod.fst

/-- Flattening a structured script to its instruction stream (used to state
content-level conditional balance). -/
def flatten_blocks : Nat → List (Nat × StructuredScript) → List Block →
    Option (List Instr)
  | _, _, [] => some []
  | 0, _, _ :: _ => none
  | fuel + 1, smap, Block.script buf :: rest =>
      (flatten_blocks fuel smap rest).map fun tail => buf ++ tail
  | fuel + 1, smap, Block.call id :: rest =>
      match map_get id smap with
      | none => none
      | some sub =>
          match flatten_blocks fuel sub.script_map sub.blocks with
          | none => none
          | some instrs =>
              (flatten_blocks fuel smap rest).map fun tail =>
                instrs ++ tail

def flatten (fuel : Nat) (s : StructuredScript) : Option (List Instr) :=
  flatten_blocks fuel s.script_map s.blocks

/-- Net conditional count of an instruction stream: `IF`/`NOTIF` opened minus
`ENDIF`s. -/
def net_ifs (l : List Instr) : Int :=
  (l.map fun i =>
    match i with
    | .op code =>
        if code = OP_IF ∨ code = OP_NOTIF then (1 : Int)
        else if code = OP_ENDIF then -1
        else 0
    | .pushBytes _ => 0).sum

/-! ## The stack analyzer over structured scripts (analyzer.rs lines 96-175) -/

/-- The block walk of `StackAnalyzer::merge_script` (`analyzer.rs` lines
143-175): a `Call` is resolved in the script map and either contributes its
`stack_hint` via `stack_change` or is merged recursively; a `Script` block is
analyzed instruction by instruction. -/
def merge_blocks : Nat → StackAnalyzer → List (Nat × StructuredScript) →
    List Block → Option StackAnalyzer
  | _, a, _, [] => some a
  | 0, _, _, _ :: _ => none
  | fuel + 1, a, smap, Block.script buf :: rest =>
      match run_buf a buf with
      | none => none
      | some a2 => merge_blocks fuel a2 smap rest
  | fuel + 1, a, smap, Block.call id :: rest =>
      match map_get id smap with
      | none => none
      | some sub =>
          match
            (match sub.stack_hint with
             | some hint => some (stack_change a hint)
             | none => merge_blocks fuel a sub.script_map sub.blocks) with
          | none => none
          | some a2 => merge_blocks fuel a2 smap rest

/-- `StackAnalyzer::merge_script` (`analyzer.rs` lines 143-175). -/
def merge_script (fuel : Nat) (a : StackAnalyzer) (s : StructuredScript) :
    Option StackAnalyzer :=
  merge_blocks fuel a s.script_map s.blocks

/-- `StackAnalyzer::analyze_blocks` (`analyzer.rs` lines 96-108): fold the
per-script analysis (honouring top-level `stack_hint`s) over a chunk's
scripts. -/
def analyze_blocks (fuel : Nat) : StackAnalyzer → List StructuredScript →
    Option StackAnalyzer
  | a, [] => some a
  | a, s :: rest =>
      match
        (match s.stack_hint with
         | some hint => some (stack_change a hint)
         | none => merge_script fuel a s) with
      | none => none
      | some a2 => analyze_blocks fuel a2 rest

/-! ## Chunker (src/chunker.rs)

The `call_stack` vectors of the source are popped and pushed at the vector
end; they are modelled as lists whose head is the vector end (the next
element to pop), so a sequence of `push` calls conses in order, and
`extend(v)` prepends `v.reverse`. -/

/-- `chunker.rs` lines 11-17 (`ChunkStats`).  The `as usize` casts of the
source are modelled by `Int.natAbs` / `Int.toNat`. -/
structure ChunkStats where
  stack_input_size : Nat
  stack_output_size : Nat
  altstack_input_size : Nat
  altstack_output_size : Nat
deriving Repr, DecidableEq

/-- `chunker.rs` lines 48-53 (`Chunk`). -/
structure Chunk where
  scripts : List StructuredScript
  size : Nat
  stats : Option ChunkStats := none
deriving Repr

/-- `chunker.rs` lines 20-46 (`UndoInfo`); `call_stack` head = vector end. -/
structure UndoInfo where
  call_stack : List StructuredScript := []
  size : Nat := 0
  num_unclosed_ifs : Int := 0
deriving Repr

/-- `UndoInfo::update` (`chunker.rs` lines 41-45). -/
def UndoInfo.update (u : UndoInfo) (builder : StructuredScript) : UndoInfo :=
  { call_stack := builder :: u.call_stack,
    size := u.size + builder.size,
    num_unclosed_ifs := u.num_unclosed_ifs + builder.num_unclosed_ifs }

/-- `chunker.rs` lines 70-79: the chunking configuration carried by
`Chunker`. -/
structure ChunkerCfg where
  target_chunk_size : Nat
  tolerance : Nat
deriving Repr

/-- The `Block::Script` arm of the undo split (`chunker.rs` lines 159-178):
split a script buffer at every `OP_IF`/`OP_NOTIF`/`OP_ENDIF`, producing, in
push order, a builder for the pending prefix followed by a single-instruction
builder for the flow opcode.  Instructions accumulated in `tmp_script` after
the last flow opcode are discarded when the loop ends, exactly as in the
source (where the final `tmp_script` is dropped without being pushed). -/
def undo_split_buf (tmp : List Instr) : List Instr → List StructuredScript
  | [] => []
  | i :: rest =>
      match i with
      | .op code =>
          if code = OP_IF ∨ code = OP_ENDIF ∨ code = OP_NOTIF then
            push_script SS.new tmp :: push_script SS.new [i] ::
              undo_split_buf [] rest
          else undo_split_buf (tmp ++ [i]) rest
      | .pushBytes _ => undo_split_buf (tmp ++ [i]) rest

/-- The push sequence produced by one builder in the undo loop's descend arm
(`chunker.rs` lines 153-181): blocks are iterated in reverse; a `Call` pushes
the referenced sub-script (panic on a missing map entry), a `Script` pushes
its split pieces. -/
def undo_push_list (b : StructuredScript) : Option (List StructuredScript) :=
  go b.script_map b.blocks.reverse
where
  go (smap : List (Nat × StructuredScript)) :
      List Block → Option (List StructuredScript)
    | [] => some []
    | Block.call id :: rest =>
        match map_get id smap with
        | none => none
        | some sub => (go smap rest).map fun tail => sub :: tail
    | Block.script buf :: rest =>
        (go smap rest).map fun tail => undo_split_buf [] buf ++ tail

/-- Accumulator of the undo loop (`chunker.rs` lines 139-188): the running
`num_unclosed_ifs`, the remaining `undo_info.call_stack`, and the
`removed_scripts`/`removed_len` pair. -/
structure UndoAcc where
  num : Int
  stack : List StructuredScript
  removed : List StructuredScript
  removed_len : Nat
deriving Repr

/-- The `loop` of `Chunker::undo` (`chunker.rs` lines 139-188). -/
def undo_loop : Nat → UndoAcc → Option UndoAcc
  | 0, _ => none
  | fuel + 1, acc =>
      match acc.stack with
      | [] => some acc
      | b :: rest =>
          if contains_flow_op b then
            if is_script_buf b ∧ b.size = 1 then
              let acc2 : UndoAcc :=
                { num := acc.num - b.num_unclosed_ifs, stack := rest,
                  removed := acc.removed ++ [b],
                  removed_len := acc.removed_len + b.size }
              if acc2.num = 0 then some acc2 else undo_loop fuel acc2
            else
              match undo_push_list b with
              | none => none
              | some ps => undo_loop fuel { acc with stack := ps.reverse ++ rest }
          else
            undo_loop fuel
              { acc with
                stack := rest
                removed := acc.removed ++ [b]
                removed_len := acc.removed_len + b.size }

/-- `Chunker::undo` (`chunker.rs` lines 126-194).  Returns the scripts the
chunk keeps from the undo stack (in chunk order), the removed length, and the
updated main call stack; `none` models the final
`assert!(num_unclosed_ifs >= 0)` / `assert_eq!(num_unclosed_ifs, 0)`
failures and inner panics. -/
def chunker_undo (fuel : Nat) (num_unclosed_ifs : Int) (undo_info : UndoInfo)
    (call_stack : List StructuredScript) :
    Option (List StructuredScript × Nat × List StructuredScript) :=
  if num_unclosed_ifs = 0 then some ([], 0, call_stack)
  else
    match undo_loop fuel
        ⟨num_unclosed_ifs, undo_info.call_stack, [], 0⟩ with
    | none => none
    | some acc =>
        if acc.num = 0 then
          some (acc.stack.reverse, acc.removed_len,
            acc.removed.reverse ++ call_stack)
        else none

/-- The push sequence of the descend arm of `Chunker::find_next_chunk`
(`chunker.rs` lines 256-273): blocks iterated in reverse and pushed, so the
resulting stack holds the blocks in document order, head first; also reports
whether any `Call` block was found (`contains_call`). -/
def descend_push_list (b : StructuredScript) :
    Option (List StructuredScript × Bool) :=
  go b.script_map b.blocks
where
  go (smap : List (Nat × StructuredScript)) :
      List Block → Option (List StructuredScript × Bool)
    | [] => some ([], false)
    | Block.call id :: rest =>
        match map_get id smap with
        | none => none
        | some sub => (go smap rest).map fun t => (sub :: t.1, true)
    | Block.script buf :: rest =>
        (go smap rest).map fun t => (push_script SS.new buf :: t.1, t.2)

/-- State of the greedy loop of `Chunker::find_next_chunk`
(`chunker.rs` lines 196-284). -/
structure GreedyState where
  call_stack : List StructuredScript
  chunk_scripts : List StructuredScript := []
  chunk_len : Nat := 0
  num : Int := 0
  undo_info : UndoInfo := {}
  depth : Nat := 0
deriving Repr

/-- The `max_depth` constant of `chunker.rs` line 204. -/
def max_depth : Nat := 8

/-- The `loop` of `Chunker::find_next_chunk` (`chunker.rs` lines 207-284).
`target_chunk_size - tolerance` is `usize` arithmetic in the source; it is
modelled by truncated `Nat` subtraction (for `tolerance > target` the interval
collapses, which is the behaviour the repository's tests rely on). -/
def greedy_loop (cfg : ChunkerCfg) : Nat → GreedyState → Option GreedyState
  | 0, _ => none
  | fuel + 1, st =>
      match st.call_stack with
      | [] => some st
      | b :: cs =>
          if st.num + b.num_unclosed_ifs < 0 then none
          else
            let block_len := b.size
            if st.chunk_len + block_len <
                cfg.target_chunk_size - cfg.tolerance then
              greedy_loop cfg fuel
                { st with
                  call_stack := cs
                  num := st.num + b.num_unclosed_ifs
                  chunk_scripts := st.chunk_scripts ++ [b]
                  chunk_len := st.chunk_len + block_len }
            else if st.chunk_len + block_len ≤ cfg.target_chunk_size then
              let num2 := st.num + b.num_unclosed_ifs
              if num2 = 0 then
                greedy_loop cfg fuel
                  { call_stack := cs,
                    chunk_scripts := st.chunk_scripts ++
                      st.undo_info.call_stack.reverse ++ [b],
                    chunk_len := st.chunk_len + block_len,
                    num := num2, undo_info := {}, depth := 0 }
              else
                greedy_loop cfg fuel
                  { call_stack := cs, chunk_scripts := st.chunk_scripts,
                    chunk_len := st.chunk_len + block_len,
                    num := num2, undo_info := st.undo_info.update b,
                    depth := 0 }
            else if st.chunk_len < cfg.target_chunk_size - cfg.tolerance ∨
                st.chunk_len = 0 ∨ st.depth ≤ max_depth then
              match descend_push_list b with
              | none => none
              | some (ps, contains_call) =>
                  if contains_call ∨ st.depth ≤ max_depth then
                    greedy_loop cfg fuel
                      { st with
                        call_stack := ps ++ cs
                        depth := st.depth + 1 }
                  else none
            else
              some { st with call_stack := b :: cs }

/-- `Chunker::find_next_chunk` (`chunker.rs` lines 196-292): run the greedy
loop, then the mandatory undo; the chunk keeps the committed scripts plus
whatever survives on the undo stack, its length reduced by the removed
length. -/
def find_next_chunk (fuel : Nat) (cfg : ChunkerCfg)
    (call_stack : List StructuredScript) :
    Option (Chunk × List StructuredScript) :=
  match greedy_loop cfg fuel ⟨call_stack, [], 0, 0, {}, 0⟩ with
  | none => none
  | some st =>
      match chunker_undo fuel st.num st.undo_info st.call_stack with
      | none => none
      | some (kept, removed_len, call_stack2) =>
          some (⟨st.chunk_scripts ++ kept, st.chunk_len - removed_len, none⟩,
            call_stack2)

/-- `Chunker::find_chunks` (`chunker.rs` lines 294-305): chunk until the call
stack is empty; a zero-size chunk is the fatal "unable to fit" panic. -/
def find_chunks_loop (cfg : ChunkerCfg) :
    Nat → List StructuredScript → List Nat × List Chunk →
    Option (List Nat × List Chunk)
  | 0, _, _ => none
  | _ + 1, [], acc => some acc
  | fuel + 1, call_stack, acc =>
      match find_next_chunk (fuel + 1) cfg call_stack with
      | none => none
      | some (chunk, call_stack2) =>
          if chunk.size = 0 then none
          else find_chunks_loop cfg fuel call_stack2
            (acc.1 ++ [chunk.size], acc.2 ++ [chunk])

/-- `Chunker::new` + `Chunker::find_chunks`: the initial call stack holds the
top-level script. -/
def find_chunks (fuel : Nat) (cfg : ChunkerCfg) (top : StructuredScript) :
    Option (List Nat × List Chunk) :=
  find_chunks_loop cfg fuel [top] ([], [])

/-- `Chunker::stack_analyze` (`chunker.rs` lines 121-124): a fresh
`StackAnalyzer::new()` run over exactly the chunk's scripts. -/
def stack_analyze (fuel : Nat) (chunk : List StructuredScript) :
    Option StackStatus :=
  match analyze_blocks fuel {} chunk with
  | none => none
  | some a => get_status a

/-- The per-chunk statistics computation of
`Chunker::find_chunks_and_analyze_stack` (`chunker.rs` lines 101-117). -/
def chunk_stats_of (status : StackStatus) : ChunkStats :=
  { stack_input_size := status.deepest_stack_accessed.natAbs,
    stack_output_size :=
      (status.stack_changed - status.deepest_stack_accessed).toNat,
    altstack_input_size := status.deepest_altstack_accessed.natAbs,
    altstack_output_size :=
      (status.altstack_changed - status.deepest_altstack_accessed).toNat }

/-- The chunk-collection loop of `Chunker::find_chunks_and_analyze_stack`
(`chunker.rs` lines 96-100): no zero-size check here. -/
def collect_chunks_loop (cfg : ChunkerCfg) :
    Nat → List StructuredScript → List Chunk → Option (List Chunk)
  | 0, _, _ => none
  | _ + 1, [], acc => some acc
  | fuel + 1, call_stack, acc =>
      match find_next_chunk (fuel + 1) cfg call_stack with
      | none => none
      | some (chunk, call_stack2) =>
          collect_chunks_loop cfg fuel call_stack2 (acc ++ [chunk])

/-- `Chunker::find_chunks_and_analyze_stack` (`chunker.rs` lines 95-119):
collect the chunks, then attach to each chunk the statistics derived from a
fresh per-chunk stack analysis. -/
def find_chunks_and_analyze_stack (fuel : Nat) (cfg : ChunkerCfg)
    (top : StructuredScript) : Option (List Chunk) :=
  match collect_chunks_loop cfg fuel [top] [] with
  | none => none
  | some chunks =>
      chunks.mapM fun chunk =>
        (stack_analyze fuel chunk.scripts).map fun status =>
          { chunk with stats := some (chunk_stats_of status) }

/-! ## Supporting lemmas: composition of stack statuses -/

theorem accum_assoc (a b c : StackStatus) :
    accum (accum a b) c = accum a (accum b c) := by
  cases a; cases b; cases c
  simp only [accum, StackStatus.mk.injEq]
  refine ⟨by omega, by omega, by omega, by omega⟩

theorem accum_zero (s : StackStatus)
    (h1 : s.deepest_stack_accessed ≤ s.stack_changed)
    (h2 : s.deepest_altstack_accessed ≤ s.altstack_changed) :
    accum s {} = s := by
  cases s
  simp only [accum, StackStatus.mk.injEq]
  simp only at h1 h2
  refine ⟨by omega, by omega, by omega, by omega⟩

theorem sc_lc2 (st : StackStatus) (ifs : List IfStackEle)
    (lc : Option Int) (eff : StackStatus) :
    (stack_change ⟨st, ifs, lc⟩ eff).last_constant = lc := by
  cases ifs with
  | nil => simp [stack_change]
  | cons h t => cases h <;> simp [stack_change]

theorem stack_change_shift_mk (s st : StackStatus) (ifs : List IfStackEle)
    (lc : Option Int) (eff : StackStatus) :
    stack_change ⟨accum s st, ifs, lc⟩ eff =
      ⟨accum s (stack_change ⟨st, ifs, lc⟩ eff).stack_status,
        (stack_change ⟨st, ifs, lc⟩ eff).if_stack,
        (stack_change ⟨st, ifs, lc⟩ eff).last_constant⟩ := by
  cases ifs with
  | nil => simp [stack_change, accum_assoc]
  | cons h t => cases h <;> simp [stack_change]

theorem handle_flow_shift (s : StackStatus) (st : StackStatus)
    (ifs : List IfStackEle) (lc : Option Int) (opcode : Nat) :
    handle_opcode_flow ⟨accum s st, ifs, lc⟩ opcode =
      (handle_opcode_flow ⟨st, ifs, lc⟩ opcode).map fun a =>
        ⟨accum s a.stack_status, a.if_stack, a.last_constant⟩ := by
  unfold handle_opcode_flow
  show (if _ then _ else _) = _
  split_ifs
  · cases opcode_stack_table opcode <;> simp [stack_change_shift_mk]
  · rfl
  · cases ifs with
    | nil => rfl
    | cons h t => cases h <;> rfl
  · cases ifs with
    | nil => rfl
    | cons h t =>
        cases h with
        | ifFlow s1 =>
            by_cases hc : s1.stack_changed = 0 ∧ s1.altstack_changed = 0 <;>
              simp [hc, stack_change_shift_mk]
        | elseFlow s1 s2 =>
            by_cases hc : s1.stack_changed = s2.stack_changed ∧
                s1.altstack_changed = s2.altstack_changed <;>
              simp [hc, stack_change_shift_mk]
  · cases lc with
    | none => rfl
    | some x => simp [stack_change_shift_mk]
  · cases lc with
    | none => rfl
    | some x => simp [stack_change_shift_mk]
  · cases opcode_stack_table opcode <;> simp [stack_change_shift_mk]

theorem handle_opcode_shift (s : StackStatus) (st : StackStatus)
    (ifs : List IfStackEle) (lc : Option Int) (opcode : Nat) :
    handle_opcode ⟨accum s st, ifs, lc⟩ opcode =
      (handle_opcode ⟨st, ifs, lc⟩ opcode).map fun a =>
        ⟨accum s a.stack_status, a.if_stack, a.last_constant⟩ := by
  unfold handle_opcode
  rw [handle_flow_shift]
  cases handle_opcode_flow ⟨st, ifs, lc⟩ opcode <;> rfl

theorem push_slice_shift (s : StackStatus) (st : StackStatus)
    (ifs : List IfStackEle) (lc : Option Int) (bytes : List Nat) :
    handle_push_slice ⟨accum s st, ifs, lc⟩ bytes =
      (fun a : StackAnalyzer =>
        (⟨accum s a.stack_status, a.if_stack, a.last_constant⟩ :
          StackAnalyzer))
        (handle_push_slice ⟨st, ifs, lc⟩ bytes) := by
  unfold handle_push_slice
  cases read_scriptint bytes with
  | none => simp [stack_change_shift_mk]
  | some x =>
      by_cases hx : 0 ≤ x ∧ x ≤ 1000 <;> simp [hx, stack_change_shift_mk]

theorem step_instr_shift (s : StackStatus) (a : StackAnalyzer) (i : Instr) :
    step_instr ⟨accum s a.stack_status, a.if_stack, a.last_constant⟩ i =
      (step_instr a i).map fun a2 =>
        ⟨accum s a2.stack_status, a2.if_stack, a2.last_constant⟩ := by
  cases a with
  | mk st ifs lc =>
      cases i with
      | op code => exact handle_opcode_shift s st ifs lc code
      | pushBytes data => simp [step_instr, push_slice_shift]

/-- Simulation: running the analyzer from a base status shifted by `s` yields
the same run with the final base status shifted by `s` (the if-stack and the
side channel are untouched by the shift). -/
theorem run_buf_shift (s : StackStatus) :
    ∀ (l : List Instr) (a out : StackAnalyzer),
    run_buf a l = some out →
    run_buf ⟨accum s a.stack_status, a.if_stack, a.last_constant⟩ l =
      some ⟨accum s out.stack_status, out.if_stack, out.last_constant⟩ := by
  intro l
  induction l with
  | nil =>
      intro a out h
      simp only [run_buf, Option.some.injEq] at h
      subst h
      rfl
  | cons i rest ih =>
      intro a out h
      simp only [run_buf] at h ⊢
      rw [step_instr_shift]
      cases hs : step_instr a i with
      | none => rw [hs] at h; exact absurd h (by simp)
      | some a2 =>
          rw [hs] at h
          simpa using ih a2 out h

theorem run_buf_append (l1 l2 : List Instr) :
    ∀ a : StackAnalyzer, run_buf a (l1 ++ l2) =
      match run_buf a l1 with
      | none => none
      | some a2 => run_buf a2 l2 := by
  induction l1 with
  | nil => intro a; rfl
  | cons i rest ih =>
      intro a
      simp only [List.cons_append, run_buf]
      cases step_instr a i with
      | none => rfl
      | some a2 => exact ih a2

/-! ## Claim theorems (first group) -/

/-- C3: accumulating a fragment effect `(access, change)` onto a running
status with deepest access `i` and net change `j` yields
`i + min 0 (access + (j - i))` and `j + change`, the same formula applying
independently to the alt-stack fields; and analyzing
`OP_ADD OP_ADD OP_ADD` from the empty starting status yields
`deepest_stack_accessed = -4` and `stack_changed = -3`. -/
theorem claim_C3 :
    (∀ st eff : StackStatus,
      (accum st eff).deepest_stack_accessed =
        st.deepest_stack_accessed +
          min 0 (eff.deepest_stack_accessed +
            (st.stack_changed - st.deepest_stack_accessed)) ∧
      (accum st eff).stack_changed =
        st.stack_changed + eff.stack_changed ∧
      (accum st eff).deepest_altstack_accessed =
        st.deepest_altstack_accessed +
          min 0 (eff.deepest_altstack_accessed +
            (st.altstack_changed - st.deepest_altstack_accessed)) ∧
      (accum st eff).altstack_changed =
        st.altstack_changed + eff.altstack_changed) ∧
    run_buf {} [Instr.op OP_ADD, Instr.op OP_ADD, Instr.op OP_ADD] =
      some ⟨⟨-4, -3, 0, 0⟩, [], none⟩ :=
  ⟨fun _ _ => ⟨rfl, rfl, rfl, rfl⟩, by decide⟩

/-- C5: stack-status composition is associative with respect to
concatenation: if analyzing fragment `A` from the empty analyzer yields the
balanced status `sA` (with the side channel ending at `lcA`), and analyzing
fragment `B` alone from the empty status (continuing the side channel) yields
`sB`, then feeding `A` and then `B` through one analyzer yields exactly the
composition `accum sA sB`.  The two inequality hypotheses are the analyzer's
own invariant (asserted by the source in `stack_change`) that a status never
records fewer produced elements than it consumed. -/
theorem claim_C5 (A B : List Instr) (sA sB : StackStatus)
    (ifsB : List IfStackEle) (lcA lcB : Option Int)
    (hA : run_buf {} A = some ⟨sA, [], lcA⟩)
    (hwf1 : sA.deepest_stack_accessed ≤ sA.stack_changed)
    (hwf2 : sA.deepest_altstack_accessed ≤ sA.altstack_changed)
    (hB : run_buf ⟨{}, [], lcA⟩ B = some ⟨sB, ifsB, lcB⟩) :
    run_buf {} (A ++ B) = some ⟨accum sA sB, ifsB, lcB⟩ := by
  rw [run_buf_append, hA]
  have hz : accum sA {} = sA := accum_zero sA hwf1 hwf2
  have := run_buf_shift sA B ⟨{}, [], lcA⟩ ⟨sB, ifsB, lcB⟩ hB
  simpa [hz] using this

/-- Witness for C5 at `A = B = [OP_ADD]`: composing the two `OP_ADD`
summaries gives the status `(-3, -2)` for `OP_ADD OP_ADD`. -/
theorem claim_C5_witness :
    run_buf {} ([Instr.op OP_ADD] ++ [Instr.op OP_ADD]) =
      some ⟨accum ⟨-2, -1, 0, 0⟩ ⟨-2, -1, 0, 0⟩, [], none⟩ :=
  claim_C5 [Instr.op OP_ADD] [Instr.op OP_ADD] ⟨-2, -1, 0, 0⟩
    ⟨-2, -1, 0, 0⟩ [] none none (by decide) (by decide) (by decide) (by decide)

/-! ## Claim C6: ENDIF handling -/

theorem endif_flow_ifFlow (ast st : StackStatus) (rest : List IfStackEle)
    (alc : Option Int) :
    handle_opcode_flow ⟨ast, IfStackEle.ifFlow st :: rest, alc⟩ OP_ENDIF =
      if st.stack_changed = 0 ∧ st.altstack_changed = 0 then
        some (stack_change ⟨ast, rest, alc⟩ st)
      else none := rfl

theorem endif_flow_elseFlow (ast s1 s2 : StackStatus) (rest : List IfStackEle)
    (alc : Option Int) :
    handle_opcode_flow ⟨ast, IfStackEle.elseFlow s1 s2 :: rest, alc⟩
        OP_ENDIF =
      if s1.stack_changed = s2.stack_changed ∧
          s1.altstack_changed = s2.altstack_changed then
        some (stack_change ⟨ast, rest, alc⟩ (min_status s1 s2))
      else none := rfl

/-- C6: on `ENDIF` with an `if`/`else` pair of branch statuses, a mismatch in
net stack change or net alt-stack change is fatal, and otherwise the effect
merged into the enclosing accumulator is `min_status`: the minimum of the two
branches' deepest accesses on each stack together with the (common) net
changes of the first branch; with a single if-branch the implicit else is the
empty status, the branch must have zero net changes, and the merged effect is
the branch status itself, which coincides with its `min_status` against the
empty status whenever its deepest accesses are (as always for a real branch)
nonpositive. -/
theorem claim_C6 (ast : StackStatus) (aifs : List IfStackEle)
    (alc : Option Int) (s1 s2 : StackStatus) (rest : List IfStackEle) :
    (aifs = IfStackEle.elseFlow s1 s2 :: rest →
      ((s1.stack_changed ≠ s2.stack_changed ∨
          s1.altstack_changed ≠ s2.altstack_changed) →
        handle_opcode ⟨ast, aifs, alc⟩ OP_ENDIF = none) ∧
      (s1.stack_changed = s2.stack_changed →
        s1.altstack_changed = s2.altstack_changed →
        handle_opcode ⟨ast, aifs, alc⟩ OP_ENDIF =
          some { stack_change ⟨ast, rest, alc⟩ (min_status s1 s2) with
                   last_constant := none } ∧
        min_status s1 s2 =
          ⟨min s1.deepest_stack_accessed s2.deepest_stack_accessed,
            s1.stack_changed,
            min s1.deepest_altstack_accessed s2.deepest_altstack_accessed,
            s1.altstack_changed⟩)) ∧
    (aifs = IfStackEle.ifFlow s1 :: rest →
      ((s1.stack_changed ≠ 0 ∨ s1.altstack_changed ≠ 0) →
        handle_opcode ⟨ast, aifs, alc⟩ OP_ENDIF = none) ∧
      (s1.stack_changed = 0 → s1.altstack_changed = 0 →
        handle_opcode ⟨ast, aifs, alc⟩ OP_ENDIF =
          some { stack_change ⟨ast, rest, alc⟩ s1 with
                   last_constant := none } ∧
        (s1.deepest_stack_accessed ≤ 0 → s1.deepest_altstack_accessed ≤ 0 →
          s1 = min_status s1 {}))) := by
  constructor
  · intro h
    subst h
    constructor
    · intro hne
      unfold handle_opcode
      rw [endif_flow_elseFlow, if_neg (by tauto)]
      rfl
    · intro h1 h2
      refine ⟨?_, ?_⟩
      · unfold handle_opcode
        rw [endif_flow_elseFlow, if_pos ⟨h1, h2⟩]
        rfl
      · rfl
  · intro h
    subst h
    constructor
    · intro hne
      unfold handle_opcode
      rw [endif_flow_ifFlow, if_neg (by tauto)]
      rfl
    · intro h1 h2
      refine ⟨?_, ?_⟩
      · unfold handle_opcode
        rw [endif_flow_ifFlow, if_pos ⟨h1, h2⟩]
        rfl
      · intro hd1 hd2
        cases s1
        simp only [min_status, StackStatus.mk.injEq]
        simp only at hd1 hd2 h1 h2
        refine ⟨by omega, trivial, by omega, trivial⟩

/-- Witness for C6 at a concrete analyzer state whose top if-frame is an
`else` pair with matching net changes, and at one with a mismatch. -/
theorem claim_C6_witness :
    (handle_opcode
        ⟨{}, [IfStackEle.elseFlow ⟨-1, 0, 0, 0⟩ ⟨-2, 0, 0, 0⟩], some 3⟩
        OP_ENDIF =
      some { stack_change ⟨{}, [], some 3⟩
               (min_status ⟨-1, 0, 0, 0⟩ ⟨-2, 0, 0, 0⟩) with
               last_constant := none } ∧
      min_status ⟨-1, 0, 0, 0⟩ ⟨-2, 0, 0, 0⟩ =
        ⟨min (-1) (-2), 0, min 0 0, 0⟩) ∧
    handle_opcode ⟨{}, [IfStackEle.elseFlow ⟨-1, 1, 0, 0⟩ ⟨-2, 0, 0, 0⟩],
        none⟩ OP_ENDIF = none := by
  constructor
  · exact ((claim_C6 {} [IfStackEle.elseFlow ⟨-1, 0, 0, 0⟩ ⟨-2, 0, 0, 0⟩]
      (some 3) ⟨-1, 0, 0, 0⟩ ⟨-2, 0, 0, 0⟩ []).1 rfl).2 rfl rfl
  · exact ((claim_C6 {} [IfStackEle.elseFlow ⟨-1, 1, 0, 0⟩ ⟨-2, 0, 0, 0⟩]
      none ⟨-1, 1, 0, 0⟩ ⟨-2, 0, 0, 0⟩ []).1 rfl).1 (by norm_num)

/-! ## Claim C7: the last-constant side channel -/

/-- C7 counterexample: the original claim says the side channel is reset by
every instruction that does not push a small constant, and that `OP_PICK`
with no known constant is fatal; but `OP_DUP` pushes no constant and yet
leaves `last_constant = some 5` intact, so `OP_5 OP_DUP OP_PICK` analyzes
successfully (where the claim would require a fatal error after the reset). -/
theorem counterexample_C7 :
    handle_opcode ⟨{}, [], some 5⟩ OP_DUP =
      some ⟨⟨-1, 1, 0, 0⟩, [], some 5⟩ ∧
    (some (5 : Int) ≠ none) ∧
    run_buf ⟨{}, [], none⟩ [Instr.op 0x55, Instr.op OP_DUP, Instr.op OP_PICK] =
      some ⟨⟨-5, 2, 0, 0⟩, [], none⟩ := by
  refine ⟨by decide, by decide, by decide⟩

theorem stack_change_keeps_lc (a : StackAnalyzer) (eff : StackStatus) :
    (stack_change a eff).last_constant = a.last_constant := by
  cases a with
  | mk st ifs lc => exact sc_lc2 st ifs lc eff

/-- C7 (amended): the analyzer tracks the most recently pushed small constant
(a value in `0..=1000`) as a side channel; on every successfully handled
opcode the new side-channel value is `lc_update`, which keeps the constant
across `OP_DUP`, records `OP_PUSHNUM_1..16` and the empty push, and resets it
for every other opcode; a data push records a decoded value in `0..=1000`,
resets the channel for any other decoded value, and leaves it unchanged when
decoding fails; and `OP_PICK`/`OP_ROLL` with no known constant are fatal
analysis errors. -/
theorem claim_C7 :
    (∀ (a a2 : StackAnalyzer) (opcode : Nat),
      handle_opcode a opcode = some a2 →
      a2.last_constant = lc_update a.last_constant opcode) ∧
    (∀ (lc : Option Int) (opcode : Nat),
      ((OP_PUSHNUM_1 ≤ opcode ∧ opcode ≤ OP_PUSHNUM_16) →
        lc_update lc opcode = some (Int.ofNat (opcode - 0x50))) ∧
      (opcode = OP_DUP → lc_update lc opcode = lc) ∧
      (opcode = OP_PUSHBYTES_0 → lc_update lc opcode = some 0) ∧
      (¬(OP_PUSHNUM_1 ≤ opcode ∧ opcode ≤ OP_PUSHNUM_16) → opcode ≠ OP_DUP →
        opcode ≠ OP_PUSHBYTES_0 → lc_update lc opcode = none)) ∧
    (∀ (a : StackAnalyzer) (bytes : List Nat),
      (handle_push_slice a bytes).last_constant =
        match read_scriptint bytes with
        | some x => if 0 ≤ x ∧ x ≤ 1000 then some x else none
        | none => a.last_constant) ∧
    (∀ a : StackAnalyzer, a.last_constant = none →
      handle_opcode a OP_PICK = none ∧ handle_opcode a OP_ROLL = none) := by
  refine ⟨?_, ?_, ?_, ?_⟩
  · intro a a2 opcode h
    unfold handle_opcode at h
    cases hf : handle_opcode_flow a opcode with
    | none => rw [hf] at h; exact absurd h (by simp)
    | some a3 =>
        rw [hf] at h
        simp only [Option.map_some', Option.some.injEq] at h
        rw [← h]
  · intro lc opcode
    refine ⟨?_, ?_, ?_, ?_⟩
    · intro h; simp [lc_update, h]
    · intro h
      simp only [lc_update, h, OP_DUP, OP_PUSHNUM_1, OP_PUSHNUM_16]
      norm_num
    · intro h
      simp only [lc_update, h, OP_PUSHBYTES_0, OP_DUP, OP_PUSHNUM_1,
        OP_PUSHNUM_16]
      norm_num
    · intro h1 h2 h3
      simp [lc_update, h1, h2, h3]
  · intro a bytes
    unfold handle_push_slice
    cases read_scriptint bytes with
    | none => simp [stack_change_keeps_lc]
    | some x =>
        by_cases hx : 0 ≤ x ∧ x ≤ 1000 <;> simp [hx, stack_change_keeps_lc]
  · intro a h
    constructor
    · show (handle_opcode_flow a OP_PICK).map _ = none
      unfold handle_opcode_flow
      norm_num [OP_IF, OP_NOTIF, OP_RESERVED, OP_ELSE, OP_ENDIF, OP_PICK]
      rw [h]
    · show (handle_opcode_flow a OP_ROLL).map _ = none
      unfold handle_opcode_flow
      norm_num [OP_IF, OP_NOTIF, OP_RESERVED, OP_ELSE, OP_ENDIF, OP_PICK,
        OP_ROLL]
      rw [h]

/-- Witness for C7: the `lc_update` clauses at `OP_DUP`, the push-slice rule
on a decodable small constant, and the fatal `OP_PICK` on an unknown
constant, all at concrete inputs. -/
theorem claim_C7_witness :
    ((some 7 : Option Int) = lc_update (some 7) OP_DUP) ∧
    (handle_push_slice ⟨{}, [], none⟩ [5]).last_constant =
      (match read_scriptint [5] with
       | some x => if 0 ≤ x ∧ x ≤ 1000 then some x else none
       | none => none) ∧
    handle_opcode ⟨{}, [], none⟩ OP_PICK = none := by
  refine ⟨(claim_C7.2.1 (some 7) OP_DUP).2.1 rfl |>.symm,
    claim_C7.2.2.1 ⟨{}, [], none⟩ [5],
    (claim_C7.2.2.2 ⟨{}, [], none⟩ rfl).1⟩

/-! ## Claim C10: push_env_script and empty fragments -/

/-- A one-opcode fragment (`OP_1`), used as concrete input by several
claims. -/
def frag_one : StructuredScript := push_opcode SS.new OP_PUSHNUM_1

/-- C10 counterexample: splicing the empty fragment into `frag_one` does not
return `frag_one` unchanged — a `Call` block for the empty fragment is
appended — and splicing `frag_one` into the empty fragment does not return
`frag_one` either. -/
theorem counterexample_C10 :
    (push_env_script frag_one SS.new).blocks.length = 2 ∧
    frag_one.blocks.length = 1 ∧
    push_env_script frag_one SS.new ≠ frag_one ∧
    push_env_script SS.new frag_one ≠ frag_one := by
  refine ⟨by decide, by decide, fun h => ?_, fun h => ?_⟩
  · have h2 := congrArg (fun s => s.blocks.length) h
    revert h2
    decide
  · have h2 := congrArg (fun s => s.blocks) h
    revert h2
    decide

/-- C10 (amended): `push_env_script` never elides a splice: for every
receiver `s` and fragment `data` (empty or not) it appends exactly one
`Call` block keyed by the fragment's content hash, adds the fragment's size,
and registers the fragment in the script map unless that hash is already
present (first writer wins). -/
theorem claim_C10 (s data : StructuredScript) :
    (push_env_script s data).blocks =
      s.blocks ++ [Block.call (calculate_hash data)] ∧
    (push_env_script s data).size = s.size + data.size ∧
    (push_env_script s data).script_map =
      (if map_contains (calculate_hash data) s.script_map then s.script_map
       else s.script_map ++ [(calculate_hash data, data)]) :=
  ⟨rfl, rfl, rfl⟩

/-! ## Claim C9: per-chunk stack statistics -/

/-- A two-opcode fragment (`OP_1 OP_1`). -/
def frag_two : StructuredScript :=
  push_opcode (push_opcode SS.new OP_PUSHNUM_1) OP_PUSHNUM_1

/-- Top-level script for the C9 counterexample: `frag_two` then
`frag_one`. -/
def c9_top : StructuredScript :=
  push_env_script (push_env_script SS.new frag_two) frag_one

/-- C9 counterexample: chunking `OP_1 OP_1 | OP_1` at target size 2 produces
a first chunk with stack output size 2 and a second chunk whose declared
stack input size is 0 (its own deepest access from a fresh analysis), not the
previous chunk's output size 2 — the analysis is not resumed from the
previous chunk's state. -/
theorem counterexample_C9 :
    (find_chunks_and_analyze_stack 60 ⟨2, 1000⟩ c9_top).map
        (fun cs => cs.map fun c => (c.size, c.stats)) =
      some [(2, some ⟨0, 2, 0, 0⟩), (1, some ⟨0, 1, 0, 0⟩)] ∧
    ChunkStats.stack_input_size ⟨0, 1, 0, 0⟩ ≠
      ChunkStats.stack_output_size ⟨0, 2, 0, 0⟩ := by
  refine ⟨by decide, by decide⟩

theorem option_mapM_mem {α β : Type} (f : α → Option β) :
    ∀ (l : List α) (l2 : List β), l.mapM f = some l2 →
    ∀ b ∈ l2, ∃ a ∈ l, f a = some b := by
  intro l
  induction l with
  | nil =>
      intro l2 h b hb
      simp only [List.mapM_nil, Option.pure_def, Option.some.injEq] at h
      subst h
      simp at hb
  | cons x xs ih =>
      intro l2 h b hb
      rw [List.mapM_cons] at h
      cases hx : f x with
      | none => rw [hx] at h; simp at h
      | some y =>
          rw [hx] at h
          cases hxs : xs.mapM f with
          | none => rw [hxs] at h; simp at h
          | some ys =>
              rw [hxs] at h
              simp only [Option.pure_def, Option.bind_some,
                Option.bind_eq_bind, Option.some_bind,
                Option.some.injEq] at h
              subst h
              rcases List.mem_cons.mp hb with hb1 | hb2
              · exact ⟨x, List.mem_cons_self x xs, hb1 ▸ hx⟩
              · obtain ⟨a, ha, hfa⟩ := ih ys hxs b hb2
                exact ⟨a, List.mem_cons_of_mem x ha, hfa⟩

/-- C9 (amended): every chunk's `ChunkStats` is computed by re-running a
fresh stack analyzer (`StackAnalyzer::new()`: zero status, empty if-stack,
no last-constant carried over) on exactly that chunk's scripts; the declared
stack/alt-stack input sizes are that analysis's own deepest accesses, not the
previous chunk's output sizes. -/
theorem claim_C9 (fuel : Nat) (cfg : ChunkerCfg) (top : StructuredScript)
    (chunks : List Chunk)
    (h : find_chunks_and_analyze_stack fuel cfg top = some chunks) :
    ∀ c ∈ chunks, ∃ status, stack_analyze fuel c.scripts = some status ∧
      c.stats = some (chunk_stats_of status) := by
  intro c hc
  unfold find_chunks_and_analyze_stack at h
  cases hcol : collect_chunks_loop cfg fuel [top] [] with
  | none => rw [hcol] at h; exact absurd h (by simp)
  | some chunks0 =>
      rw [hcol] at h
      obtain ⟨c0, _, hf⟩ := option_mapM_mem _ chunks0 chunks h c hc
      cases hsa : stack_analyze fuel c0.scripts with
      | none => rw [hsa] at hf; exact absurd hf (by simp)
      | some status =>
          rw [hsa] at hf
          simp only [Option.map_some', Option.some.injEq] at hf
          subst hf
          exact ⟨status, hsa, rfl⟩

/-- Witness for C9: the single chunk of a one-opcode script carries the
statistics of its own fresh analysis. -/
theorem claim_C9_witness :
    ∃ status,
      stack_analyze 10 (Chunk.mk [frag_one] 1 (some ⟨0, 1, 0, 0⟩)).scripts =
        some status ∧
      (Chunk.mk [frag_one] 1 (some ⟨0, 1, 0, 0⟩)).stats =
        some (chunk_stats_of status) :=
  claim_C9 10 ⟨5, 0⟩ frag_one [Chunk.mk [frag_one] 1 (some ⟨0, 1, 0, 0⟩)]
    rfl (Chunk.mk [frag_one] 1 (some ⟨0, 1, 0, 0⟩))
    (List.mem_singleton.mpr rfl)

/-! ## Claim C1: chunk concatenation versus whole-script compilation -/

/-- Compiling the scripts kept in one chunk, in order, and concatenating. -/
def compile_chunk (fuel : Nat) (c : Chunk) : Option (List Nat) :=
  (c.scripts.mapM (compile fuel)).map List.flatten

/-- Chunk the script, compile each chunk and concatenate the results. -/
def compile_chunks (fuel : Nat) (cfg : ChunkerCfg) (top : StructuredScript) :
    Option (List Nat) :=
  (find_chunks fuel cfg top).bind fun r =>
    (r.2.mapM (compile_chunk fuel)).map List.flatten

/-- Fragment `OP_IF OP_1 OP_ENDIF OP_1` (a balanced conditional followed by a
trailing instruction). -/
def c1_mid : StructuredScript :=
  push_opcode (push_opcode (push_opcode (push_opcode SS.new OP_IF)
    OP_PUSHNUM_1) OP_ENDIF) OP_PUSHNUM_1

/-- Fragment `OP_ENDIF OP_1 OP_1`. -/
def c1_closer : StructuredScript :=
  push_opcode (push_opcode (push_opcode SS.new OP_ENDIF) OP_PUSHNUM_1)
    OP_PUSHNUM_1

/-- Fragment `OP_IF` alone. -/
def c1_opener : StructuredScript := push_opcode SS.new OP_IF

/-- The C1 failing input: `frag_two ∘ OP_IF ∘ (IF 1 ENDIF 1) ∘ (ENDIF 1 1)`,
a conditional-balanced 10-byte script built from four sub-fragments. -/
def c1_top : StructuredScript :=
  push_env_script (push_env_script (push_env_script
    (push_env_script SS.new frag_two) c1_opener) c1_mid) c1_closer

/-- C1: `find_chunks` with target 7 / tolerance 1000 succeeds on `c1_top`
(borders `[3, 7]`), yet concatenating the compiled chunks yields 9 bytes
while compiling the whole script yields 10: during the mandatory undo step
the source splits the fragment `OP_IF OP_1 OP_ENDIF OP_1` at its flow
opcodes and silently discards the instructions accumulated after the last
`OP_ENDIF` (the final `tmp_script` of `Chunker::undo` is dropped), so the
trailing `OP_1` never reaches any chunk.  This contradicts the reconstruction
property the repository's own `test_compile_to_chunks` asserts. -/
theorem claim_C1_code_bug :
    (find_chunks 60 ⟨7, 1000⟩ c1_top).map Prod.fst = some [3, 7] ∧
    compile_chunks 60 ⟨7, 1000⟩ c1_top =
      some [81, 81, 99, 99, 81, 104, 104, 81, 81] ∧
    compile 20 c1_top = some [81, 81, 99, 99, 81, 104, 81, 104, 81, 81] ∧
    ([81, 81, 99, 99, 81, 104, 104, 81, 81] : List Nat) ≠
      [81, 81, 99, 99, 81, 104, 81, 104, 81, 81] := by
  refine ⟨by decide, by decide, by decide, by decide⟩

/-! ## Claim C8: minimal integer encoding -/

theorem leVal_append (bs : List Nat) (x : Nat) :
    leVal (bs ++ [x]) = leVal bs + x * 256 ^ bs.length := by
  induction bs with
  | nil => simp [leVal]
  | cons b rest ih => simp [leVal, ih]; ring

theorem magLoop_spec (fuel : Nat) :
    ∀ abs : Nat, abs ≤ fuel →
    leVal ((magLoop fuel abs).1 ++ [(magLoop fuel abs).2]) = abs ∧
    (magLoop fuel abs).2 ≤ 255 ∧
    (1 ≤ abs → 1 ≤ (magLoop fuel abs).2) := by
  induction fuel with
  | zero =>
      intro abs h
      interval_cases abs
      simp [magLoop, leVal]
  | succ f ih =>
      intro abs h
      by_cases habs : abs > 255
      · have hd : abs / 256 ≤ f := by
          have := Nat.div_lt_self (by omega : 0 < abs) (by omega : 1 < 256)
          omega
        obtain ⟨ih1, ih2, ih3⟩ := ih (abs / 256) hd
        have hmag : magLoop (f + 1) abs =
            ((abs % 256) :: (magLoop f (abs / 256)).1,
              (magLoop f (abs / 256)).2) := by
          simp [magLoop, habs]
        rw [hmag]
        refine ⟨?_, ih2, fun _ => ih3 (by omega)⟩
        simp only [List.cons_append, leVal, List.append_eq]
        rw [ih1]
        omega
      · have hmag : magLoop (f + 1) abs = ([], abs) := by
          simp [magLoop, habs]
        rw [hmag]
        simp [leVal]
        omega

theorem pow_le_of_leVal (bs : List Nat) (f : Nat) (hf : 1 ≤ f) :
    256 ^ bs.length ≤ leVal (bs ++ [f]) := by
  rw [leVal_append]
  have : 256 ^ bs.length ≤ f * 256 ^ bs.length := Nat.le_mul_of_pos_left _ hf
  omega

/-- The byte layout of `write_scriptint` for `n ≠ 0`. -/
theorem write_scriptint_cases (n : Int) (hn : n ≠ 0) :
    ∃ bs f, magLoop n.natAbs n.natAbs = (bs, f) ∧
      leVal (bs ++ [f]) = n.natAbs ∧ 1 ≤ f ∧ f ≤ 255 ∧
      write_scriptint n =
        (if 0x80 ≤ f then bs ++ [f, if n < 0 then 0x80 else 0]
         else bs ++ [if n < 0 then f + 0x80 else f]) := by
  obtain ⟨h1, h2, h3⟩ := magLoop_spec n.natAbs n.natAbs le_rfl
  refine ⟨(magLoop n.natAbs n.natAbs).1, (magLoop n.natAbs n.natAbs).2,
    rfl, h1, h3 (by omega : 1 ≤ n.natAbs), h2, ?_⟩
  unfold write_scriptint
  rw [if_neg hn]

theorem parse_lo (w : List Nat) (x : Nat) (hx : x % 256 < 128) :
    scriptint_parse (w ++ [x]) = (leVal (w ++ [x]) : Int) := by
  unfold scriptint_parse
  rw [List.getLast?_concat]
  simp only
  rw [if_neg (by omega)]

theorem parse_hi (w : List Nat) (x : Nat) (hx : 128 ≤ x % 256) :
    scriptint_parse (w ++ [x]) =
      -((leVal (w ++ [x]) : Int) - (128 * 256 ^ w.length : Nat)) := by
  unfold scriptint_parse
  rw [List.getLast?_concat]
  simp only
  rw [if_pos hx]
  have : (w ++ [x]).length - 1 = w.length := by simp
  rw [this]

theorem parse_write (n : Int) : scriptint_parse (write_scriptint n) = n := by
  by_cases hn : n = 0
  · subst hn; rfl
  obtain ⟨bs, f, hmag, hle, hf1, hf255, hw⟩ := write_scriptint_cases n hn
  by_cases hbig : 0x80 ≤ f
  · rw [hw, if_pos hbig]
    by_cases hneg : n < 0
    · rw [if_pos hneg]
      have hL : bs ++ [f, 128] = (bs ++ [f]) ++ [128] := by simp
      rw [hL, parse_hi _ _ (by omega)]
      have hv : leVal ((bs ++ [f]) ++ [128]) =
          n.natAbs + 128 * 256 ^ (bs ++ [f]).length := by
        rw [leVal_append, hle]
      omega
    · rw [if_neg hneg]
      have hL : bs ++ [f, 0] = (bs ++ [f]) ++ [0] := by simp
      rw [hL, parse_lo _ _ (by omega)]
      have hv := leVal_append (bs ++ [f]) 0
      omega
  · rw [hw, if_neg hbig]
    by_cases hneg : n < 0
    · rw [if_pos hneg]
      rw [parse_hi _ _ (by omega)]
      have hv := leVal_append bs (f + 128)
      have hle2 := leVal_append bs f
      rw [hle] at hle2
      have hdist : (f + 128) * 256 ^ bs.length =
          f * 256 ^ bs.length + 128 * 256 ^ bs.length := Nat.add_mul f 128 _
      omega
    · rw [if_neg hneg]
      rw [parse_lo _ _ (by omega)]
      rw [hle]
      omega


theorem read_of_checks (w : List Nat) (x : Nat)
    (hlen : (w ++ [x]).length ≤ 4)
    (hmin : ¬(x % 128 = 0 ∧ ((w ++ [x]).length ≤ 1 ∨
      (w ++ [x]).getD ((w ++ [x]).length - 2) 0 % 256 < 128))) :
    read_scriptint (w ++ [x]) = some (scriptint_parse (w ++ [x])) := by
  unfold read_scriptint
  rw [List.getLast?_concat]
  simp only
  rw [if_neg (by omega), if_neg hmin]

theorem pow_lt_of_len (bs : List Nat) (f k : Nat) (hf : 1 ≤ f)
    (hlt : leVal (bs ++ [f]) < 256 ^ k) : bs.length < k := by
  have h1 := pow_le_of_leVal bs f hf
  have h2 : (256 : Nat) ^ bs.length < 256 ^ k := lt_of_le_of_lt h1 hlt
  exact (Nat.pow_lt_pow_iff_right (by norm_num)).mp h2

theorem pow_mul_le_of_leVal (bs : List Nat) (f : Nat) (hf : 128 ≤ f) :
    128 * 256 ^ bs.length ≤ leVal (bs ++ [f]) := by
  rw [leVal_append]
  have : 128 * 256 ^ bs.length ≤ f * 256 ^ bs.length :=
    Nat.mul_le_mul_right _ hf
  omega

theorem getD_mid (bs : List Nat) (f x : Nat) :
    ((bs ++ [f]) ++ [x]).getD (((bs ++ [f]) ++ [x]).length - 2) 0 = f := by
  have h1 : (bs ++ [f]) ++ [x] = bs ++ [f, x] := by simp
  have h2 : ((bs ++ [f]) ++ [x]).length - 2 = bs.length := by simp
  rw [h2, h1]
  induction bs with
  | nil => rfl
  | cons b t ih => simpa using ih

theorem read_write (n : Int) (h31 : n.natAbs < 2 ^ 31) :
    read_scriptint (write_scriptint n) = some n := by
  by_cases hn : n = 0
  · subst hn; rfl
  obtain ⟨bs, f, hmag, hle, hf1, hf255, hw⟩ := write_scriptint_cases n hn
  have hpw := parse_write n
  by_cases hbig : 0x80 ≤ f
  · have hb := pow_mul_le_of_leVal bs f hbig
    rw [hle] at hb
    have hpow : (256 : Nat) ^ bs.length < 256 ^ 3 := by
      have h23 : (2 : Nat) ^ 31 = 128 * 256 ^ 3 := by norm_num
      omega
    have hL3 : bs.length < 3 :=
      (Nat.pow_lt_pow_iff_right (by norm_num)).mp hpow
    have hL2 : bs ++ [f, if n < 0 then (0x80 : Nat) else 0] =
        (bs ++ [f]) ++ [if n < 0 then (0x80 : Nat) else 0] := by simp
    have hres : read_scriptint ((bs ++ [f]) ++
        [if n < 0 then (0x80 : Nat) else 0]) =
        some (scriptint_parse ((bs ++ [f]) ++
          [if n < 0 then (0x80 : Nat) else 0])) := by
      refine read_of_checks _ _ ?_ ?_
      · simp
        omega
      · rintro ⟨h1, h2⟩
        rcases h2 with h2 | h2
        · simp at h2
        · rw [getD_mid] at h2
          omega
    have hwb : write_scriptint n =
        (bs ++ [f]) ++ [if n < 0 then (0x80 : Nat) else 0] := by
      rw [hw, if_pos hbig]
      simp
    rw [hwb, hres, ← hwb, hpw]
  · have hlt : leVal (bs ++ [f]) < 256 ^ 4 := by
      rw [hle]
      have : (2 : Nat) ^ 31 < 256 ^ 4 := by norm_num
      omega
    have hL4 : bs.length < 4 := pow_lt_of_len bs f 4 (by omega) hlt
    have hres : read_scriptint (bs ++
        [if n < 0 then f + 0x80 else f]) =
        some (scriptint_parse (bs ++ [if n < 0 then f + 0x80 else f])) := by
      refine read_of_checks _ _ ?_ ?_
      · simp
        omega
      · rintro ⟨h1, h2⟩
        revert h1
        split_ifs <;> omega
    have hwb : write_scriptint n =
        bs ++ [if n < 0 then f + 0x80 else f] := by
      rw [hw, if_neg hbig]
    rw [hwb, hres, ← hwb, hpw]


theorem write_len_75 (n : Int) (h64 : n.natAbs ≤ 2 ^ 63) :
    (write_scriptint n).length ≤ 75 := by
  by_cases hn : n = 0
  · subst hn; simp [write_scriptint]
  obtain ⟨bs, f, hmag, hle, hf1, hf255, hw⟩ := write_scriptint_cases n hn
  have hlt : leVal (bs ++ [f]) < 256 ^ 8 := by
    rw [hle]
    have : (2 : Nat) ^ 63 < 256 ^ 8 := by norm_num
    omega
  have hL : bs.length < 8 := pow_lt_of_len bs f 8 (by omega) hlt
  rw [hw]
  split_ifs <;> simp <;> omega

/-- C8: for every integer `n` (in the source's `i64` range): if
`n ∈ {-1} ∪ [1,16]` then `push_int n` compiles to exactly one byte, the
corresponding small-number opcode (`OP_PUSHNUM_NEG1` for `-1`, `0x50 + n`
otherwise); `push_int 0` compiles to the canonical empty-push opcode
`OP_PUSHBYTES_0`; any other value compiles to a length-prefixed
little-endian sign-magnitude data push whose sign-magnitude decoding yields
`n` again (and which the library's minimality-checking `read_scriptint`
accepts whenever it fits its four-byte limit, i.e. `|n| < 2^31`); in
particular `push_int 1234` emits the bytes `[2, 210, 4]`. -/
theorem claim_C8 (n : Int) (h64 : n.natAbs ≤ 2 ^ 63) :
    ((n = -1 ∨ (1 ≤ n ∧ n ≤ 16)) →
      compile 5 (push_int SS.new n) = some [(n - 1 + 0x51).toNat] ∧
      (n = -1 → (n - 1 + 0x51).toNat = OP_PUSHNUM_NEG1) ∧
      (1 ≤ n → ((n - 1 + 0x51).toNat : Int) = n + 0x50)) ∧
    (n = 0 → compile 5 (push_int SS.new n) = some [OP_PUSHBYTES_0]) ∧
    (¬(n = -1 ∨ (1 ≤ n ∧ n ≤ 16)) → n ≠ 0 →
      compile 5 (push_int SS.new n) =
        some ((write_scriptint n).length :: write_scriptint n) ∧
      scriptint_parse (write_scriptint n) = n ∧
      (n.natAbs < 2 ^ 31 → read_scriptint (write_scriptint n) = some n)) ∧
    compile 5 (push_int SS.new 1234) = some [2, 210, 4] := by
  refine ⟨?_, ?_, ?_, by decide⟩
  · intro h
    refine ⟨?_, ?_, ?_⟩
    · unfold push_int
      rw [if_pos h]
      rfl
    · intro h1; subst h1; rfl
    · intro h1; omega
  · intro h; subst h; rfl
  · intro h1 h2
    refine ⟨?_, parse_write n, read_write n⟩
    unfold push_int
    rw [if_neg h1, if_neg h2]
    have hb : compile 5 (push_int_non_minimal SS.new n) =
        some (scriptBytes [Instr.pushBytes (write_scriptint n)]) := rfl
    rw [hb]
    have hs : scriptBytes [Instr.pushBytes (write_scriptint n)] =
        pushPrefix (write_scriptint n).length ++ write_scriptint n := by
      simp [scriptBytes, Instr.encode]
    have hp : pushPrefix (write_scriptint n).length =
        [(write_scriptint n).length] := by
      unfold pushPrefix
      rw [if_pos (write_len_75 n h64)]
    rw [hs, hp]
    rfl

theorem claim_C8_witness :
    compile 5 (push_int SS.new 3) = some [(3 - 1 + 0x51 : Int).toNat] ∧
    compile 5 (push_int SS.new 0) = some [OP_PUSHBYTES_0] ∧
    (compile 5 (push_int SS.new 500) =
        some ((write_scriptint 500).length :: write_scriptint 500) ∧
      scriptint_parse (write_scriptint 500) = 500 ∧
      read_scriptint (write_scriptint 500) = some 500) ∧
    compile 5 (push_int SS.new 1234) = some [2, 210, 4] := by
  obtain ⟨w1, _, _⟩ := (claim_C8 3 (by norm_num)).1 (by norm_num)
  obtain ⟨w2, w3, w4⟩ :=
    (claim_C8 500 (by norm_num)).2.2.1 (by norm_num) (by norm_num)
  exact ⟨w1, (claim_C8 0 (by norm_num)).2.1 rfl,
    ⟨w2, w3, w4 (by norm_num)⟩, (claim_C8 1234 (by norm_num)).2.2.2⟩

/-! ## Claim C2: the hash-keyed compile cache -/

/-- Consistency of the content-addressed script maps with one global binding
function `G`: every binding reachable from the map agrees with `G`. -/
inductive Agrees (G : Nat → Option StructuredScript) :
    List (Nat × StructuredScript) → Prop
  | intro (m : List (Nat × StructuredScript))
      (h1 : ∀ p ∈ m, G p.1 = some p.2)
      (h2 : ∀ p ∈ m, Agrees G p.2.script_map) : Agrees G m

theorem Agrees.mem {G : Nat → Option StructuredScript}
    {m : List (Nat × StructuredScript)} (hA : Agrees G m)
    {p : Nat × StructuredScript} (hp : p ∈ m) :
    G p.1 = some p.2 ∧ Agrees G p.2.script_map := by
  cases hA with
  | intro _ h1 h2 => exact ⟨h1 p hp, h2 p hp⟩

theorem map_get_mem (id : Nat) :
    ∀ (m : List (Nat × StructuredScript)) (s : StructuredScript),
    map_get id m = some s → (id, s) ∈ m := by
  intro m
  induction m with
  | nil => intro s h; simp [map_get] at h
  | cons p rest ih =>
      intro s h
      unfold map_get at h
      split_ifs at h with hk
      · obtain ⟨k, v⟩ := p
        simp only at hk
        simp only [Option.some.injEq] at h
        subst hk; subst h
        exact List.mem_cons_self _ _
      · exact List.mem_cons_of_mem _ (ih s h)

/-- Size accuracy relative to `G`: every globally bound script compiles (at
some fuel) to a byte string of exactly its recorded `size`. -/
def SizeOkG (G : Nat → Option StructuredScript) : Prop :=
  ∀ id sub, G id = some sub →
    ∃ f bs, compile_blocks f sub.script_map sub.blocks = some bs ∧
      bs.length = sub.size

theorem compile_blocks_mono :
    ∀ (f1 f2 : Nat) (smap : List (Nat × StructuredScript))
      (blocks : List Block) (out : List Nat), f1 ≤ f2 →
    compile_blocks f1 smap blocks = some out →
    compile_blocks f2 smap blocks = some out := by
  intro f1
  induction f1 with
  | zero =>
      intro f2 smap blocks out _ h
      cases blocks with
      | nil => simpa [compile_blocks] using h
      | cons b rest => simp [compile_blocks] at h
  | succ f ih =>
      intro f2 smap blocks out hle h
      cases blocks with
      | nil => simpa [compile_blocks] using h
      | cons b rest =>
          obtain ⟨f2p, rfl⟩ : ∃ k, f2 = k + 1 :=
            ⟨f2 - 1, by omega⟩
          cases b with
          | script buf =>
              cases hr : compile_blocks f smap rest with
              | none => simp [compile_blocks, hr] at h
              | some tail =>
                  simp only [compile_blocks, hr, Option.map_some'] at h
                  simp only [compile_blocks,
                    ih f2p smap rest tail (by omega) hr, Option.map_some']
                  exact h
          | call id =>
              cases hg : map_get id smap with
              | none => simp [compile_blocks, hg] at h
              | some sub =>
                  cases hsub : compile_blocks f sub.script_map sub.blocks with
                  | none => simp [compile_blocks, hg, hsub] at h
                  | some bytes =>
                      cases hr : compile_blocks f smap rest with
                      | none => simp [compile_blocks, hg, hsub, hr] at h
                      | some tail =>
                          simp only [compile_blocks, hg, hsub, hr,
                            Option.map_some'] at h
                          simp only [compile_blocks, hg,
                            ih f2p sub.script_map sub.blocks bytes (by omega)
                              hsub,
                            ih f2p smap rest tail (by omega) hr,
                            Option.map_some']
                          exact h

theorem compile_blocks_det {f1 f2 : Nat}
    {smap : List (Nat × StructuredScript)} {blocks : List Block}
    {o1 o2 : List Nat} (h1 : compile_blocks f1 smap blocks = some o1)
    (h2 : compile_blocks f2 smap blocks = some o2) : o1 = o2 := by
  have e1 := compile_blocks_mono f1 (max f1 f2) smap blocks o1
    (le_max_left _ _) h1
  have e2 := compile_blocks_mono f2 (max f1 f2) smap blocks o2
    (le_max_right _ _) h2
  rw [e1] at e2
  exact (Option.some.injEq _ _).mp e2


/-- Invariant tying the compile cache to the output buffer: every cached id
is globally bound, and the recorded segment of the buffer is that script's
(size-accurate) compilation. -/
def CacheOk (G : Nat → Option StructuredScript) (script : List Nat)
    (cache : List (Nat × Nat)) : Prop :=
  ∀ id start, cache.lookup id = some start →
    ∃ sub bs f, G id = some sub ∧
      compile_blocks f sub.script_map sub.blocks = some bs ∧
      bs.length = sub.size ∧ start + sub.size ≤ script.length ∧
      (script.drop start).take sub.size = bs

theorem seg_append (l1 l2 : List Nat) (start size : Nat)
    (h : start + size ≤ l1.length) :
    ((l1 ++ l2).drop start).take size = (l1.drop start).take size := by
  rw [List.drop_append_of_le_length (by omega)]
  rw [List.take_append_of_le_length (by simpa using by omega)]

theorem CacheOk.extend {G : Nat → Option StructuredScript}
    {script : List Nat} {cache : List (Nat × Nat)}
    (h : CacheOk G script cache) (suffix : List Nat) :
    CacheOk G (script ++ suffix) cache := by
  intro id start hl
  obtain ⟨sub, bs, f, hG, hc, hlen, hle, hseg⟩ := h id start hl
  refine ⟨sub, bs, f, hG, hc, hlen, by simp; omega, ?_⟩
  rw [seg_append _ _ _ _ hle]
  exact hseg

/-- Correctness of the cached compiler against the cache-free semantics. -/
theorem compile_cached_correct (G : Nat → Option StructuredScript)
    (hSz : SizeOkG G) :
    ∀ (fuel : Nat) (smap : List (Nat × StructuredScript))
      (blocks : List Block) (script : List Nat) (cache : List (Nat × Nat))
      (out : List Nat),
    Agrees G smap →
    compile_blocks fuel smap blocks = some out →
    CacheOk G script cache →
    ∃ cache2,
      compile_to_bytes fuel smap blocks script cache =
        some (script ++ out, cache2) ∧
      CacheOk G (script ++ out) cache2 := by
  intro fuel
  induction fuel with
  | zero =>
      intro smap blocks script cache out hAg hc hok
      cases blocks with
      | nil =>
          simp only [compile_blocks, Option.some.injEq] at hc
          subst hc
          exact ⟨cache, by simp [compile_to_bytes], by simpa using hok⟩
      | cons b rest => simp [compile_blocks] at hc
  | succ f ih =>
      intro smap blocks script cache out hAg hc hok
      cases blocks with
      | nil =>
          simp only [compile_blocks, Option.some.injEq] at hc
          subst hc
          exact ⟨cache, by simp [compile_to_bytes], by simpa using hok⟩
      | cons b rest =>
          cases b with
          | script buf =>
              cases hr : compile_blocks f smap rest with
              | none => simp [compile_blocks, hr] at hc
              | some tail =>
                  simp only [compile_blocks, hr, Option.map_some',
                    Option.some.injEq] at hc
                  subst hc
                  obtain ⟨cache2, hcc, hok2⟩ := ih smap rest
                    (script ++ scriptBytes buf) cache tail hAg hr
                    (hok.extend _)
                  refine ⟨cache2, ?_, ?_⟩
                  · show compile_to_bytes f smap rest
                      (script ++ scriptBytes buf) cache = _
                    rw [hcc]
                    simp
                  · simpa using hok2
          | call id =>
              cases hg : map_get id smap with
              | none => simp [compile_blocks, hg] at hc
              | some sub =>
                  have hmem := map_get_mem id smap sub hg
                  obtain ⟨hGid, hAgSub⟩ := hAg.mem hmem
                  cases hsub : compile_blocks f sub.script_map sub.blocks with
                  | none => simp [compile_blocks, hg, hsub] at hc
                  | some bytes =>
                      cases hr : compile_blocks f smap rest with
                      | none => simp [compile_blocks, hg, hsub, hr] at hc
                      | some tail =>
                          simp only [compile_blocks, hg, hsub, hr,
                            Option.map_some', Option.some.injEq] at hc
                          subst hc
                          have hblen : bytes.length = sub.size := by
                            obtain ⟨f0, bs0, hc0, hl0⟩ := hSz id sub hGid
                            rw [← compile_blocks_det hc0 hsub]
                            exact hl0
                          cases hl : cache.lookup id with
                          | some called_start =>
                              obtain ⟨sub2, bs2, f2, hG2, hc2, hlen2, hle2,
                                hseg2⟩ := hok id called_start hl
                              have hsubeq : sub2 = sub := by
                                rw [hGid] at hG2
                                exact (Option.some.injEq _ _).mp hG2.symm
                              rw [hsubeq] at hc2 hseg2 hle2
                              have hbs2 : bs2 = bytes :=
                                compile_blocks_det hc2 hsub
                              rw [hbs2] at hseg2
                              obtain ⟨cache2, hcc, hok2⟩ := ih smap rest
                                (script ++ bytes) cache tail hAg hr
                                (hok.extend _)
                              refine ⟨cache2, ?_, ?_⟩
                              · simp only [compile_to_bytes, hg, hl]
                                rw [hseg2, hcc]
                                simp
                              · simpa using hok2
                          | none =>
                              obtain ⟨cacheA, hccA, hokA⟩ := ih
                                sub.script_map sub.blocks script cache bytes
                                hAgSub hsub hok
                              have hokB : CacheOk G (script ++ bytes)
                                  ((id, script.length) :: cacheA) := by
                                intro id2 start2 hl2
                                by_cases hid : id = id2
                                · subst hid
                                  simp only [List.lookup, beq_self_eq_true,
                                    Option.some.injEq] at hl2
                                  subst hl2
                                  refine ⟨sub, bytes, f, hGid, hsub, hblen,
                                    by simp [← hblen], ?_⟩
                                  rw [List.drop_left, ← hblen,
                                    List.take_length]
                                · have hne : (id2 == id) = false :=
                                    beq_eq_false_iff_ne.mpr (Ne.symm hid)
                                  have : cacheA.lookup id2 = some start2 := by
                                    simpa [List.lookup, hne] using hl2
                                  exact hokA id2 start2 this
                              obtain ⟨cache2, hcc, hok2⟩ := ih smap rest
                                (script ++ bytes)
                                ((id, script.length) :: cacheA) tail hAg hr
                                hokB
                              refine ⟨cache2, ?_, ?_⟩
                              · simp only [compile_to_bytes, hg, hl, hccA]
                                rw [hcc]
                                simp
                              · simpa using hok2


theorem compile_blocks_append :
    ∀ (b1 : List Block) (fuel : Nat) (smap : List (Nat × StructuredScript))
      (rest : List Block) (out : List Nat),
    compile_blocks fuel smap (b1 ++ rest) = some out →
    ∃ o1 o2, compile_blocks fuel smap b1 = some o1 ∧
      compile_blocks fuel smap rest = some o2 ∧ out = o1 ++ o2 := by
  intro b1
  induction b1 with
  | nil =>
      intro fuel smap rest out h
      exact ⟨[], out, by simp [compile_blocks], h, rfl⟩
  | cons b bs ih =>
      intro fuel smap rest out h
      cases fuel with
      | zero => simp [compile_blocks] at h
      | succ f =>
          cases b with
          | script buf =>
              cases hr : compile_blocks f smap (bs ++ rest) with
              | none => simp [compile_blocks, hr] at h
              | some tail =>
                  simp only [List.cons_append, compile_blocks,
                    List.append_eq, hr, Option.map_some',
                    Option.some.injEq] at h
                  obtain ⟨o1, o2, h1, h2, h3⟩ := ih f smap rest tail hr
                  refine ⟨scriptBytes buf ++ o1, o2, ?_, ?_, ?_⟩
                  · simp [compile_blocks, h1]
                  · exact compile_blocks_mono f (f + 1) smap rest o2
                      (by omega) h2
                  · rw [← h, h3]
                    simp
          | call id =>
              cases hg : map_get id smap with
              | none => simp [compile_blocks, hg] at h
              | some sub =>
                  cases hsub : compile_blocks f sub.script_map sub.blocks with
                  | none => simp [compile_blocks, hg, hsub] at h
                  | some bytes =>
                      cases hr : compile_blocks f smap (bs ++ rest) with
                      | none => simp [compile_blocks, hg, hsub, hr] at h
                      | some tail =>
                          simp only [List.cons_append, compile_blocks,
                            List.append_eq, hg, hsub, hr, Option.map_some',
                            Option.some.injEq] at h
                          obtain ⟨o1, o2, h1, h2, h3⟩ := ih f smap rest tail
                            hr
                          refine ⟨bytes ++ o1, o2, ?_, ?_, ?_⟩
                          · simp [compile_blocks, hg, hsub, h1]
                          · exact compile_blocks_mono f (f + 1) smap rest o2
                              (by omega) h2
                          · rw [← h, h3]
                            simp
  
theorem compile_cons_call (fuel : Nat)
    (smap : List (Nat × StructuredScript)) (id : Nat) (rest : List Block)
    (out : List Nat)
    (h : compile_blocks fuel smap (Block.call id :: rest) = some out) :
    ∃ f sub bytes tail, fuel = f + 1 ∧ map_get id smap = some sub ∧
      compile_blocks f sub.script_map sub.blocks = some bytes ∧
      compile_blocks f smap rest = some tail ∧ out = bytes ++ tail := by
  cases fuel with
  | zero => simp [compile_blocks] at h
  | succ f =>
      cases hg : map_get id smap with
      | none => simp [compile_blocks, hg] at h
      | some sub =>
          cases hsub : compile_blocks f sub.script_map sub.blocks with
          | none => simp [compile_blocks, hg, hsub] at h
          | some bytes =>
              cases hr : compile_blocks f smap rest with
              | none => simp [compile_blocks, hg, hsub, hr] at h
              | some tail =>
                  simp only [compile_blocks, hg, hsub, hr, Option.map_some',
                    Option.some.injEq] at h
                  exact ⟨f, sub, bytes, tail, rfl, rfl, hsub, hr, h.symm⟩

/-- C2: under content-addressed consistency (`Agrees`) and size accuracy
(`SizeOkG`), the cache-using compiler agrees byte-for-byte with cache-free
recompilation; in particular, for a script whose block list references the
same sub-fragment `F` (by its hash `id`) at two positions, `compile`
produces exactly the blocks around them with the compilation of `F` inserted
at each of the two positions — a cache-served occurrence is identical to a
recompiled occurrence. -/
theorem claim_C2 (G : Nat → Option StructuredScript)
    (s F : StructuredScript) (id : Nat) (b1 b2 b3 : List Block)
    (fuel : Nat) (bs : List Nat)
    (hAg : Agrees G s.script_map)
    (hSz : SizeOkG G)
    (hblocks : s.blocks = b1 ++ Block.call id :: (b2 ++ Block.call id :: b3))
    (hF : map_get id s.script_map = some F)
    (hnaive : compile_plain fuel s = some bs) :
    compile fuel s = some bs ∧
    ∃ a1 a2 a3 cf,
      compile_blocks fuel s.script_map b1 = some a1 ∧
      compile_blocks fuel s.script_map b2 = some a2 ∧
      compile_blocks fuel s.script_map b3 = some a3 ∧
      compile_plain fuel F = some cf ∧
      bs = a1 ++ cf ++ a2 ++ cf ++ a3 := by
  constructor
  · unfold compile
    have hok0 : CacheOk G [] [] := by
      intro i st h
      simp [List.lookup] at h
    obtain ⟨cache2, hcc, _⟩ := compile_cached_correct G hSz fuel
      s.script_map s.blocks [] [] bs hAg hnaive hok0
    rw [hcc]
    rfl
  · unfold compile_plain at hnaive
    rw [hblocks] at hnaive
    obtain ⟨a1, o, h1, h2, h3⟩ := compile_blocks_append b1 fuel
      s.script_map _ bs hnaive
    obtain ⟨f1, sub1, cf1, tail1, hf1, hg1, hc1, hr1, ho1⟩ :=
      compile_cons_call fuel s.script_map id _ o h2
    rw [hF] at hg1
    have hsub1 : sub1 = F := by
      exact ((Option.some.injEq _ _).mp hg1).symm
    rw [hsub1] at hc1
    obtain ⟨a2, o2, h4, h5, h6⟩ := compile_blocks_append b2 f1
      s.script_map _ tail1 hr1
    obtain ⟨f2, sub2, cf2, a3, hf2, hg2, hc2, hr2, ho2⟩ :=
      compile_cons_call f1 s.script_map id _ o2 h5
    rw [hF] at hg2
    have hsub2 : sub2 = F := by
      exact ((Option.some.injEq _ _).mp hg2).symm
    rw [hsub2] at hc2
    have hcf : cf2 = cf1 := compile_blocks_det hc2 hc1
    refine ⟨a1, a2, a3, cf1, ?_, ?_, ?_, ?_, ?_⟩
    · exact h1
    · exact compile_blocks_mono f1 fuel s.script_map b2 a2 (by omega) h4
    · exact compile_blocks_mono f2 fuel s.script_map b3 a3 (by omega) hr2
    · exact compile_blocks_mono f1 fuel F.script_map F.blocks cf1
        (by omega) hc1
    · rw [h3, ho1, h6, ho2, hcf]
      simp


/-- A structured script referencing the same fragment `frag_two` at two
positions via `push_env_script`. -/
def c2_s : StructuredScript :=
  push_env_script (push_env_script SS.new frag_two) frag_two

/-- Witness for C2: the doubly-referencing script compiles (through the
cache) to the two concatenated copies of `compile frag_two`. -/
theorem claim_C2_witness :
    compile 5 c2_s = some [81, 81, 81, 81] ∧
    ∃ a1 a2 a3 cf,
      compile_blocks 5 c2_s.script_map [] = some a1 ∧
      compile_blocks 5 c2_s.script_map [] = some a2 ∧
      compile_blocks 5 c2_s.script_map [] = some a3 ∧
      compile_plain 5 frag_two = some cf ∧
      [81, 81, 81, 81] = a1 ++ cf ++ a2 ++ cf ++ a3 := by
  refine claim_C2 (fun i => map_get i c2_s.script_map) c2_s frag_two
    (calculate_hash frag_two) [] [] [] 5 [81, 81, 81, 81] ?_ ?_ rfl rfl
    (by decide)
  · refine Agrees.intro _ ?_ ?_
    · intro p hp
      rcases List.mem_singleton.mp hp with rfl
      rfl
    · intro p hp
      rcases List.mem_singleton.mp hp with rfl
      exact Agrees.intro [] (by simp) (by simp)
  · intro i sub hh
    rw [show c2_s.script_map = [(calculate_hash frag_two, frag_two)] from
      rfl] at hh
    unfold map_get at hh
    split_ifs at hh with hi
    · obtain rfl : frag_two = sub := (Option.some.injEq _ _).mp hh
      exact ⟨5, [81, 81], by decide, by decide⟩
    · simp [map_get] at hh


/-! ## Claim C4 machinery: conditional-balance bookkeeping -/

/-- The net conditional count recorded by one block: the stored
`num_unclosed_ifs` of the called script, or the net count of a literal
run. -/
def block_num (smap : List (Nat × StructuredScript)) : Block → Option Int
  | Block.call id => (map_get id smap).map StructuredScript.num_unclosed_ifs
  | Block.script buf => some (net_ifs buf)

/-- Sum of `block_num` over a block list (`none` when a lookup fails). -/
def bns (smap : List (Nat × StructuredScript)) : List Block → Option Int
  | [] => some 0
  | b :: rest =>
      match block_num smap b, bns smap rest with
      | some x, some y => some (x + y)
      | _, _ => none

/-- Field consistency of the conditional bookkeeping: the stored
`num_unclosed_ifs` is the sum of the per-block nets, and equals the
difference between the recorded unclosed-`IF` and orphan-`ENDIF` position
counts; recursively for every registered sub-script. -/
inductive WFNum : StructuredScript → Prop
  | intro (s : StructuredScript)
      (h1 : bns s.script_map s.blocks = some s.num_unclosed_ifs)
      (h2 : s.num_unclosed_ifs =
        (s.unclosed_if_positions.length : Int) -
          s.extra_endif_positions.length)
      (h3 : ∀ p ∈ s.script_map, WFNum p.2) : WFNum s

theorem WFNum.bns_eq {s : StructuredScript} (h : WFNum s) :
    bns s.script_map s.blocks = some s.num_unclosed_ifs := by
  cases h with | intro _ h1 _ _ => exact h1

theorem WFNum.count_eq {s : StructuredScript} (h : WFNum s) :
    s.num_unclosed_ifs = (s.unclosed_if_positions.length : Int) -
      s.extra_endif_positions.length := by
  cases h with | intro _ _ h2 _ => exact h2

theorem WFNum.map_mem {s : StructuredScript} (h : WFNum s) :
    ∀ p ∈ s.script_map, WFNum p.2 := by
  cases h with | intro _ _ _ h3 => exact h3

theorem WFNum.flow_free {s : StructuredScript} (h : WFNum s)
    (hf : contains_flow_op s = false) : s.num_unclosed_ifs = 0 := by
  have h2 := h.count_eq
  unfold contains_flow_op at hf
  simp only [Bool.not_eq_false', Bool.and_eq_true, List.isEmpty_iff,
    decide_eq_true_eq] at hf
  rw [h2, hf.1.1, hf.1.2]
  simp

theorem net_ifs_append (l1 l2 : List Instr) :
    net_ifs (l1 ++ l2) = net_ifs l1 + net_ifs l2 := by
  simp [net_ifs]

/-- Sum of the stored conditional counts over a script list. -/
def sum_num (l : List StructuredScript) : Int :=
  (l.map StructuredScript.num_unclosed_ifs).sum

theorem sum_num_nil : sum_num [] = 0 := rfl

theorem sum_num_cons (s : StructuredScript) (l : List StructuredScript) :
    sum_num (s :: l) = s.num_unclosed_ifs + sum_num l := by
  simp [sum_num]

theorem sum_num_append (l1 l2 : List StructuredScript) :
    sum_num (l1 ++ l2) = sum_num l1 + sum_num l2 := by
  simp [sum_num]

theorem sum_num_reverse (l : List StructuredScript) :
    sum_num l.reverse = sum_num l := by
  simp only [sum_num, List.map_reverse]
  exact List.sum_reverse _


theorem walk_spec (base : Nat) :
    ∀ (l : List Instr) (num : Int) (u e : List Nat) (m : Nat × Nat)
      (pos : Nat),
    (push_script_walk base (num, u, e, m, pos) l).1 = num + net_ifs l ∧
    (((push_script_walk base (num, u, e, m, pos) l).2.1.length : Int) -
        (push_script_walk base (num, u, e, m, pos) l).2.2.1.length) =
      ((u.length : Int) - e.length) + net_ifs l := by
  intro l
  induction l with
  | nil =>
      intro num u e m pos
      simp [push_script_walk, net_ifs]
  | cons i rest ih =>
      intro num u e m pos
      cases i with
      | op code =>
          by_cases hif : code = OP_IF ∨ code = OP_NOTIF
          · have hstep : push_script_walk base (num, u, e, m, pos)
                (Instr.op code :: rest) =
                push_script_walk base
                  (num + 1, u ++ [base + pos], e, m, pos + 1) rest := by
              simp [push_script_walk, hif]
            rw [hstep]
            obtain ⟨ih1, ih2⟩ := ih (num + 1) (u ++ [base + pos]) e m (pos + 1)
            have hnet : net_ifs (Instr.op code :: rest) =
                1 + net_ifs rest := by
              simp [net_ifs, hif]
            rw [hnet, ih1, ih2]
            constructor
            · omega
            · simp
              omega
          · by_cases hend : code = OP_ENDIF
            · cases hu : u.getLast? with
              | some p =>
                  have hne : u ≠ [] := by
                    intro hx; subst hx; simp at hu
                  have hstep : push_script_walk base (num, u, e, m, pos)
                      (Instr.op code :: rest) =
                      push_script_walk base
                        (num - 1, u.dropLast, e,
                          update_max_interval m p (base + pos), pos + 1)
                        rest := by
                    simp [push_script_walk, hif, hend, hu, OP_IF, OP_NOTIF, OP_ENDIF]
                  rw [hstep]
                  obtain ⟨ih1, ih2⟩ := ih (num - 1) u.dropLast e
                    (update_max_interval m p (base + pos)) (pos + 1)
                  have hnet : net_ifs (Instr.op code :: rest) =
                      -1 + net_ifs rest := by
                    simp [net_ifs, hif, hend, OP_IF, OP_NOTIF, OP_ENDIF]
                  have hlen : u.dropLast.length = u.length - 1 := by
                    simp
                  have hpos : 1 ≤ u.length := by
                    cases u with
                    | nil => exact absurd rfl hne
                    | cons a t => simp
                  rw [hnet, ih1, ih2, hlen]
                  constructor
                  · omega
                  · omega
              | none =>
                  have hstep : push_script_walk base (num, u, e, m, pos)
                      (Instr.op code :: rest) =
                      push_script_walk base
                        (num - 1, u, e ++ [base + pos], m, pos + 1) rest := by
                    simp [push_script_walk, hif, hend, hu, OP_IF, OP_NOTIF, OP_ENDIF]
                  rw [hstep]
                  obtain ⟨ih1, ih2⟩ := ih (num - 1) u (e ++ [base + pos]) m
                    (pos + 1)
                  have hnet : net_ifs (Instr.op code :: rest) =
                      -1 + net_ifs rest := by
                    simp [net_ifs, hif, hend, OP_IF, OP_NOTIF, OP_ENDIF]
                  rw [hnet, ih1, ih2]
                  constructor
                  · omega
                  · simp
                    omega
            · have hstep : push_script_walk base (num, u, e, m, pos)
                  (Instr.op code :: rest) =
                  push_script_walk base (num, u, e, m, pos + 1) rest := by
                simp [push_script_walk, hif, hend]
              rw [hstep]
              obtain ⟨ih1, ih2⟩ := ih num u e m (pos + 1)
              have hnet : net_ifs (Instr.op code :: rest) = net_ifs rest := by
                simp only [net_ifs, List.map_cons, List.sum_cons]
                rw [if_neg (by simpa [OP_IF, OP_NOTIF] using hif),
                  if_neg (by simpa [OP_ENDIF] using hend)]
                simp [net_ifs]
              rw [hnet, ih1, ih2]
              exact ⟨rfl, rfl⟩
      | pushBytes data =>
          have hstep : push_script_walk base (num, u, e, m, pos)
              (Instr.pushBytes data :: rest) =
              push_script_walk base (num, u, e, m, pos + data.length + 1)
                rest := by
            simp [push_script_walk]
          rw [hstep]
          obtain ⟨ih1, ih2⟩ := ih num u e m (pos + data.length + 1)
          have hnet : net_ifs (Instr.pushBytes data :: rest) =
              net_ifs rest := by
            simp [net_ifs]
          rw [hnet, ih1, ih2]
          exact ⟨rfl, rfl⟩

theorem bns_append (smap : List (Nat × StructuredScript)) :
    ∀ l1 l2 : List Block,
      bns smap (l1 ++ l2) =
        (bns smap l1).bind fun x => (bns smap l2).map fun y => x + y := by
  intro l1
  induction l1 with
  | nil =>
      intro l2
      cases h : bns smap l2 <;> simp [bns, h]
  | cons b l ihl =>
      intro l2
      simp only [List.cons_append, List.append_eq, bns]
      rw [ihl]
      cases hb : block_num smap b <;>
        cases h1 : bns smap l <;>
          cases h2 : bns smap l2 <;>
            simp [add_assoc]

theorem bns_reverse (smap : List (Nat × StructuredScript)) :
    ∀ l : List Block, bns smap l.reverse = bns smap l := by
  intro l
  induction l with
  | nil => rfl
  | cons b l ih =>
      rw [List.reverse_cons, bns_append, ih]
      simp only [bns]
      cases hb : block_num smap b <;>
        cases h1 : bns smap l <;>
          simp [add_comm]

theorem net_ifs_cons (i : Instr) (l : List Instr) :
    net_ifs (i :: l) = net_ifs [i] + net_ifs l := by
  simp [net_ifs]

theorem net_ifs_nonflow (code : Nat) (h1 : ¬(code = OP_IF ∨ code = OP_NOTIF))
    (h2 : code ≠ OP_ENDIF) : net_ifs [Instr.op code] = 0 := by
  simp only [net_ifs, List.map_cons, List.map_nil, List.sum_cons, List.sum_nil]
  rw [if_neg h1, if_neg h2]
  simp

theorem wf_new : WFNum SS.new := by
  refine WFNum.intro _ rfl (by decide) ?_
  intro p hp
  simp [SS.new, StructuredScript.script_map] at hp

theorem push_script_script_map (s : StructuredScript) (data : List Instr) :
    (push_script s data).script_map = s.script_map := rfl

theorem push_script_blocks (s : StructuredScript) (data : List Instr) :
    (push_script s data).blocks = s.blocks ++ [Block.script data] := rfl

theorem push_script_num (s : StructuredScript) (data : List Instr) :
    (push_script s data).num_unclosed_ifs =
      (push_script_walk s.size (s.num_unclosed_ifs, s.unclosed_if_positions,
        s.extra_endif_positions, s.max_if_interval, 0) data).1 := rfl

theorem push_script_unclosed (s : StructuredScript) (data : List Instr) :
    (push_script s data).unclosed_if_positions =
      (push_script_walk s.size (s.num_unclosed_ifs, s.unclosed_if_positions,
        s.extra_endif_positions, s.max_if_interval, 0) data).2.1 := rfl

theorem push_script_extra (s : StructuredScript) (data : List Instr) :
    (push_script s data).extra_endif_positions =
      (push_script_walk s.size (s.num_unclosed_ifs, s.unclosed_if_positions,
        s.extra_endif_positions, s.max_if_interval, 0) data).2.2.1 := rfl

theorem push_script_new_num (buf : List Instr) :
    (push_script SS.new buf).num_unclosed_ifs = net_ifs buf := by
  have hw := (walk_spec 0 buf 0 [] [] (0, 0) 0).1
  rw [push_script_num]
  have hsz : SS.new.size = 0 := rfl
  have hnum : SS.new.num_unclosed_ifs = 0 := rfl
  have hu : SS.new.unclosed_if_positions = ([] : List Nat) := rfl
  have he : SS.new.extra_endif_positions = ([] : List Nat) := rfl
  have hm : SS.new.max_if_interval = (0, 0) := rfl
  rw [hsz, hnum, hu, he, hm, hw]
  omega

theorem wf_push_script {s : StructuredScript} (h : WFNum s)
    (data : List Instr) : WFNum (push_script s data) := by
  obtain ⟨hw1, hw2⟩ := walk_spec s.size data s.num_unclosed_ifs
    s.unclosed_if_positions s.extra_endif_positions s.max_if_interval 0
  refine WFNum.intro _ ?_ ?_ ?_
  · rw [push_script_script_map, push_script_blocks, push_script_num,
      bns_append, h.bns_eq, hw1]
    simp [bns, block_num]
  · rw [push_script_num, push_script_unclosed, push_script_extra, hw1, hw2]
    have hc := h.count_eq
    omega
  · intro p hp
    rw [push_script_script_map] at hp
    exact h.map_mem p hp

theorem undo_split_buf_spec :
    ∀ (l tmp : List Instr), net_ifs tmp = 0 →
      sum_num (undo_split_buf tmp l) = net_ifs l ∧
      ∀ p ∈ undo_split_buf tmp l, WFNum p := by
  intro l
  induction l with
  | nil =>
      intro tmp _
      exact ⟨rfl, fun p hp => absurd hp (by simp [undo_split_buf])⟩
  | cons i rest ih =>
      intro tmp htmp
      cases i with
      | op code =>
          by_cases hf : code = OP_IF ∨ code = OP_ENDIF ∨ code = OP_NOTIF
          · obtain ⟨ih1, ih2⟩ := ih [] rfl
            have hsplit : undo_split_buf tmp (Instr.op code :: rest) =
                push_script SS.new tmp :: push_script SS.new [Instr.op code] ::
                  undo_split_buf [] rest := by
              simp [undo_split_buf, hf]
            rw [hsplit]
            constructor
            · rw [sum_num_cons, sum_num_cons, ih1, push_script_new_num,
                push_script_new_num, htmp]
              conv_rhs => rw [net_ifs_cons]
              omega
            · intro p hp
              rcases List.mem_cons.mp hp with rfl | hp2
              · exact wf_push_script wf_new tmp
              · rcases List.mem_cons.mp hp2 with rfl | hp3
                · exact wf_push_script wf_new [Instr.op code]
                · exact ih2 p hp3
          · have h1 : ¬(code = OP_IF ∨ code = OP_NOTIF) := by tauto
            have h2 : code ≠ OP_ENDIF := by tauto
            have hstep : undo_split_buf tmp (Instr.op code :: rest) =
                undo_split_buf (tmp ++ [Instr.op code]) rest := by
              simp [undo_split_buf, hf]
            have htmp2 : net_ifs (tmp ++ [Instr.op code]) = 0 := by
              rw [net_ifs_append, htmp, net_ifs_nonflow code h1 h2]
              omega
            obtain ⟨s1, s2⟩ := ih (tmp ++ [Instr.op code]) htmp2
            rw [hstep, s1]
            refine ⟨?_, s2⟩
            rw [net_ifs_cons, net_ifs_nonflow code h1 h2]
            omega
      | pushBytes bs =>
          have hstep : undo_split_buf tmp (Instr.pushBytes bs :: rest) =
              undo_split_buf (tmp ++ [Instr.pushBytes bs]) rest := by
            simp [undo_split_buf]
          have htmp2 : net_ifs (tmp ++ [Instr.pushBytes bs]) = 0 := by
            rw [net_ifs_append, htmp]
            simp [net_ifs]
          obtain ⟨s1, s2⟩ := ih (tmp ++ [Instr.pushBytes bs]) htmp2
          rw [hstep, s1]
          refine ⟨?_, s2⟩
          rw [net_ifs_cons]
          simp [net_ifs]

theorem undo_push_go_spec (smap : List (Nat × StructuredScript))
    (hm : ∀ p ∈ smap, WFNum p.2) :
    ∀ (l : List Block) (ps : List StructuredScript),
      undo_push_list.go smap l = some ps →
      bns smap l = some (sum_num ps) ∧ ∀ p ∈ ps, WFNum p := by
  intro l
  induction l with
  | nil =>
      intro ps h
      simp only [undo_push_list.go, Option.some.injEq] at h
      subst h
      exact ⟨rfl, fun p hp => absurd hp (by simp)⟩
  | cons b rest ih =>
      intro ps h
      cases b with
      | call id =>
          cases hg : map_get id smap with
          | none => simp [undo_push_list.go, hg] at h
          | some sub =>
              simp only [undo_push_list.go, hg, Option.map_eq_some'] at h
              obtain ⟨tail, htail, hps⟩ := h
              subst hps
              obtain ⟨ih1, ih2⟩ := ih tail htail
              have hws : WFNum sub := hm (id, sub) (map_get_mem id smap sub hg)
              constructor
              · simp [bns, block_num, hg, ih1, sum_num_cons]
              · intro p hp
                rcases List.mem_cons.mp hp with rfl | hp2
                · exact hws
                · exact ih2 p hp2
      | script buf =>
          simp only [undo_push_list.go, Option.map_eq_some'] at h
          obtain ⟨tail, htail, hps⟩ := h
          subst hps
          obtain ⟨ih1, ih2⟩ := ih tail htail
          obtain ⟨u1, u2⟩ := undo_split_buf_spec buf [] rfl
          constructor
          · simp [bns, block_num, ih1, sum_num_append, u1]
          · intro p hp
            rcases List.mem_append.mp hp with hp1 | hp2
            · exact u2 p hp1
            · exact ih2 p hp2

theorem undo_push_list_spec {b : StructuredScript} (hb : WFNum b)
    {ps : List StructuredScript} (h : undo_push_list b = some ps) :
    sum_num ps = b.num_unclosed_ifs ∧ ∀ p ∈ ps, WFNum p := by
  obtain ⟨h1, h2⟩ := undo_push_go_spec b.script_map hb.map_mem
    b.blocks.reverse ps h
  rw [bns_reverse, hb.bns_eq] at h1
  exact ⟨(Option.some.inj h1).symm, h2⟩

theorem descend_push_go_spec (smap : List (Nat × StructuredScript))
    (hm : ∀ p ∈ smap, WFNum p.2) :
    ∀ (l : List Block) (ps : List StructuredScript) (flag : Bool),
      descend_push_list.go smap l = some (ps, flag) →
      bns smap l = some (sum_num ps) ∧ ∀ p ∈ ps, WFNum p := by
  intro l
  induction l with
  | nil =>
      intro ps flag h
      simp only [descend_push_list.go, Option.some.injEq, Prod.mk.injEq] at h
      obtain ⟨h1, h2⟩ := h
      subst h1
      exact ⟨rfl, fun p hp => absurd hp (by simp)⟩
  | cons b rest ih =>
      intro ps flag h
      cases b with
      | call id =>
          cases hg : map_get id smap with
          | none => simp [descend_push_list.go, hg] at h
          | some sub =>
              simp only [descend_push_list.go, hg, Option.map_eq_some'] at h
              obtain ⟨⟨tail, tflag⟩, htail, hps⟩ := h
              simp only [Prod.mk.injEq] at hps
              obtain ⟨hps1, hps2⟩ := hps
              subst hps1
              obtain ⟨ih1, ih2⟩ := ih tail tflag htail
              have hws : WFNum sub := hm (id, sub) (map_get_mem id smap sub hg)
              constructor
              · simp [bns, block_num, hg, ih1, sum_num_cons]
              · intro p hp
                rcases List.mem_cons.mp hp with rfl | hp2
                · exact hws
                · exact ih2 p hp2
      | script buf =>
          simp only [descend_push_list.go, Option.map_eq_some'] at h
          obtain ⟨⟨tail, tflag⟩, htail, hps⟩ := h
          simp only [Prod.mk.injEq] at hps
          obtain ⟨hps1, hps2⟩ := hps
          subst hps1
          obtain ⟨ih1, ih2⟩ := ih tail tflag htail
          constructor
          · simp [bns, block_num, ih1, sum_num_cons, push_script_new_num]
          · intro p hp
            rcases List.mem_cons.mp hp with rfl | hp2
            · exact wf_push_script wf_new buf
            · exact ih2 p hp2

theorem descend_push_list_spec {b : StructuredScript} (hb : WFNum b)
    {ps : List StructuredScript} {flag : Bool}
    (h : descend_push_list b = some (ps, flag)) :
    sum_num ps = b.num_unclosed_ifs ∧ ∀ p ∈ ps, WFNum p := by
  obtain ⟨h1, h2⟩ := descend_push_go_spec b.script_map hb.map_mem
    b.blocks ps flag h
  rw [hb.bns_eq] at h1
  exact ⟨(Option.some.inj h1).symm, h2⟩

theorem undo_loop_spec :
    ∀ (fuel : Nat) (n : Int) (stk rem : List StructuredScript) (rl : Nat)
      (acc2 : UndoAcc),
      (∀ s ∈ stk, WFNum s) → (∀ s ∈ rem, WFNum s) →
      undo_loop fuel ⟨n, stk, rem, rl⟩ = some acc2 →
      acc2.num - sum_num acc2.stack = n - sum_num stk ∧
      (∀ s ∈ acc2.stack, WFNum s) ∧ (∀ s ∈ acc2.removed, WFNum s) := by
  intro fuel
  induction fuel with
  | zero => intro n stk rem rl acc2 _ _ h; simp [undo_loop] at h
  | succ fuel ih =>
      intro n stk rem rl acc2 hs hr h
      cases stk with
      | nil =>
          simp only [undo_loop, Option.some.injEq] at h
          subst h
          exact ⟨rfl, hs, hr⟩
      | cons b rest =>
          simp only [undo_loop] at h
          have hwb : WFNum b := hs b (List.mem_cons_self _ _)
          have hrest : ∀ s ∈ rest, WFNum s :=
            fun s hm2 => hs s (List.mem_cons_of_mem _ hm2)
          have hremb : ∀ s ∈ rem ++ [b], WFNum s := by
            intro s hq
            rcases List.mem_append.mp hq with hq1 | hq2
            · exact hr s hq1
            · simp only [List.mem_singleton] at hq2
              exact hq2 ▸ hwb
          by_cases hf : contains_flow_op b = true
          · rw [if_pos hf] at h
            by_cases h1 : is_script_buf b = true ∧ b.size = 1
            · rw [if_pos h1] at h
              by_cases hz : n - b.num_unclosed_ifs = 0
              · rw [if_pos hz] at h
                have h2 := Option.some.inj h
                subst h2
                refine ⟨?_, hrest, hremb⟩
                rw [sum_num_cons]
                show n - b.num_unclosed_ifs - sum_num rest =
                  n - (b.num_unclosed_ifs + sum_num rest)
                omega
              · rw [if_neg hz] at h
                obtain ⟨k1, k2, k3⟩ := ih (n - b.num_unclosed_ifs) rest
                  (rem ++ [b]) (rl + b.size) acc2 hrest hremb h
                refine ⟨?_, k2, k3⟩
                rw [k1, sum_num_cons]
                omega
            · rw [if_neg h1] at h
              cases hup : undo_push_list b with
              | none => simp only [hup] at h; exact absurd h (by simp)
              | some ps =>
                  simp only [hup] at h
                  obtain ⟨u1, u2⟩ := undo_push_list_spec hwb hup
                  have hstk2 : ∀ s ∈ ps.reverse ++ rest, WFNum s := by
                    intro s hq
                    rcases List.mem_append.mp hq with hq1 | hq2
                    · exact u2 s (List.mem_reverse.mp hq1)
                    · exact hrest s hq2
                  obtain ⟨k1, k2, k3⟩ := ih n (ps.reverse ++ rest) rem rl acc2
                    hstk2 hr h
                  refine ⟨?_, k2, k3⟩
                  rw [k1, sum_num_append, sum_num_reverse, u1, sum_num_cons]
          · rw [if_neg hf] at h
            obtain ⟨k1, k2, k3⟩ := ih n rest (rem ++ [b]) (rl + b.size) acc2
              hrest hremb h
            refine ⟨?_, k2, k3⟩
            rw [k1, sum_num_cons]
            have hb0 : b.num_unclosed_ifs = 0 := hwb.flow_free (by simpa using hf)
            omega

theorem chunker_undo_spec (fuel : Nat) (num : Int) (ui : UndoInfo)
    (cs : List StructuredScript)
    (hui : ∀ s ∈ ui.call_stack, WFNum s) (hcs : ∀ s ∈ cs, WFNum s)
    (hz : num = 0 → ui.call_stack = [])
    (kept : List StructuredScript) (rlen : Nat)
    (cs2 : List StructuredScript)
    (h : chunker_undo fuel num ui cs = some (kept, rlen, cs2)) :
    sum_num kept = sum_num ui.call_stack - num ∧
    (∀ s ∈ kept, WFNum s) ∧ (∀ s ∈ cs2, WFNum s) := by
  unfold chunker_undo at h
  by_cases h0 : num = 0
  · rw [if_pos h0] at h
    simp only [Option.some.injEq, Prod.mk.injEq] at h
    obtain ⟨hk, hrl, hc⟩ := h
    subst hk
    subst hc
    refine ⟨?_, fun p hp => absurd hp (by simp), hcs⟩
    rw [hz h0, h0]
    simp [sum_num]
  · rw [if_neg h0] at h
    cases hloop : undo_loop fuel ⟨num, ui.call_stack, [], 0⟩ with
    | none => simp only [hloop] at h; exact absurd h (by simp)
    | some acc =>
        simp only [hloop] at h
        by_cases hz2 : acc.num = 0
        · rw [if_pos hz2] at h
          simp only [Option.some.injEq, Prod.mk.injEq] at h
          obtain ⟨hk, hrl, hc⟩ := h
          obtain ⟨k1, k2, k3⟩ := undo_loop_spec fuel num ui.call_stack [] 0 acc
            hui (fun s hq => absurd hq (by simp)) hloop
          refine ⟨?_, ?_, ?_⟩
          · rw [← hk, sum_num_reverse]
            omega
          · intro p hp
            rw [← hk] at hp
            exact k2 p (List.mem_reverse.mp hp)
          · intro p hp
            rw [← hc] at hp
            rcases List.mem_append.mp hp with hq | hq
            · exact k3 p (List.mem_reverse.mp hq)
            · exact hcs p hq
        · rw [if_neg hz2] at h
          exact absurd h (by simp)

theorem greedy_loop_spec (cfg : ChunkerCfg) :
    ∀ (fuel : Nat) (st st2 : GreedyState),
      st.num = sum_num st.chunk_scripts + sum_num st.undo_info.call_stack →
      (st.undo_info.call_stack ≠ [] →
        cfg.target_chunk_size - cfg.tolerance ≤ st.chunk_len) →
      (st.undo_info.call_stack ≠ [] → st.num ≠ 0) →
      (∀ s ∈ st.call_stack, WFNum s) →
      (∀ s ∈ st.chunk_scripts, WFNum s) →
      (∀ s ∈ st.undo_info.call_stack, WFNum s) →
      greedy_loop cfg fuel st = some st2 →
      st2.num = sum_num st2.chunk_scripts + sum_num st2.undo_info.call_stack ∧
      (st2.undo_info.call_stack ≠ [] →
        cfg.target_chunk_size - cfg.tolerance ≤ st2.chunk_len) ∧
      (st2.undo_info.call_stack ≠ [] → st2.num ≠ 0) ∧
      (∀ s ∈ st2.call_stack, WFNum s) ∧
      (∀ s ∈ st2.chunk_scripts, WFNum s) ∧
      (∀ s ∈ st2.undo_info.call_stack, WFNum s) := by
  intro fuel
  induction fuel with
  | zero => intro st st2 _ _ _ _ _ _ h; simp [greedy_loop] at h
  | succ fuel ih =>
      intro st st2 hsum hlen hnz hwcs hwch hwui h
      obtain ⟨scs, sch, scl, sn, sui, sd⟩ := st
      simp only at hsum hlen hnz hwcs hwch hwui
      cases scs with
      | nil =>
          simp only [greedy_loop, Option.some.injEq] at h
          subst h
          exact ⟨hsum, hlen, hnz, hwcs, hwch, hwui⟩
      | cons b cs =>
          simp only [greedy_loop] at h
          have hwb : WFNum b := hwcs b (List.mem_cons_self _ _)
          have hwcs2 : ∀ s ∈ cs, WFNum s :=
            fun s hq => hwcs s (List.mem_cons_of_mem _ hq)
          by_cases hneg : sn + b.num_unclosed_ifs < 0
          · rw [if_pos hneg] at h
            exact absurd h (by simp)
          · rw [if_neg hneg] at h
            by_cases hb1 : scl + b.size < cfg.target_chunk_size - cfg.tolerance
            · rw [if_pos hb1] at h
              refine ih ⟨cs, sch ++ [b], scl + b.size,
                sn + b.num_unclosed_ifs, sui, sd⟩ st2 ?_ ?_ ?_ hwcs2 ?_ hwui h
              · simp only [sum_num_append, sum_num_cons, sum_num_nil]
                omega
              · intro hne
                have h2 := hlen hne
                omega
              · intro hne
                have h2 := hlen hne
                omega
              · intro s hq
                rcases List.mem_append.mp hq with hq1 | hq2
                · exact hwch s hq1
                · simp only [List.mem_singleton] at hq2
                  exact hq2 ▸ hwb
            · rw [if_neg hb1] at h
              by_cases hb2 : scl + b.size ≤ cfg.target_chunk_size
              · rw [if_pos hb2] at h
                by_cases hz : sn + b.num_unclosed_ifs = 0
                · rw [if_pos hz] at h
                  refine ih ⟨cs, sch ++ sui.call_stack.reverse ++ [b],
                    scl + b.size, sn + b.num_unclosed_ifs, {}, 0⟩ st2
                    ?_ ?_ ?_ hwcs2 ?_ ?_ h
                  · simp only [sum_num_append, sum_num_cons, sum_num_nil,
                      sum_num_reverse]
                    omega
                  · intro hne
                    exact absurd rfl hne
                  · intro hne
                    exact absurd rfl hne
                  · intro s hq
                    rcases List.mem_append.mp hq with hq1 | hq2
                    · rcases List.mem_append.mp hq1 with hq3 | hq4
                      · exact hwch s hq3
                      · exact hwui s (List.mem_reverse.mp hq4)
                    · simp only [List.mem_singleton] at hq2
                      exact hq2 ▸ hwb
                  · intro s hq
                    exact absurd hq (List.not_mem_nil s)
                · rw [if_neg hz] at h
                  refine ih ⟨cs, sch, scl + b.size, sn + b.num_unclosed_ifs,
                    sui.update b, 0⟩ st2 ?_ ?_ ?_ hwcs2 hwch ?_ h
                  · simp only [UndoInfo.update, sum_num_cons]
                    omega
                  · intro hne
                    show cfg.target_chunk_size - cfg.tolerance ≤ scl + b.size
                    omega
                  · intro hne
                    exact hz
                  · intro s hq
                    simp only [UndoInfo.update] at hq
                    rcases List.mem_cons.mp hq with rfl | hq2
                    · exact hwb
                    · exact hwui s hq2
              · rw [if_neg hb2] at h
                by_cases hb3 : scl < cfg.target_chunk_size - cfg.tolerance ∨
                    scl = 0 ∨ sd ≤ max_depth
                · rw [if_pos hb3] at h
                  cases hd : descend_push_list b with
                  | none => simp only [hd] at h; exact absurd h (by simp)
                  | some pr =>
                      obtain ⟨ps, flag⟩ := pr
                      simp only [hd] at h
                      by_cases hcall : flag = true ∨ sd ≤ max_depth
                      · rw [if_pos hcall] at h
                        obtain ⟨d1, d2⟩ := descend_push_list_spec hwb hd
                        refine ih ⟨ps ++ cs, sch, scl, sn, sui, sd + 1⟩ st2
                          hsum hlen hnz ?_ hwch hwui h
                        intro s hq
                        rcases List.mem_append.mp hq with hq1 | hq2
                        · exact d2 s hq1
                        · exact hwcs2 s hq2
                      · rw [if_neg hcall] at h
                        exact absurd h (by simp)
                · rw [if_neg hb3] at h
                  have h2 := Option.some.inj h
                  subst h2
                  exact ⟨hsum, hlen, hnz, hwcs, hwch, hwui⟩

theorem find_next_chunk_spec (fuel : Nat) (cfg : ChunkerCfg)
    (call_stack : List StructuredScript)
    (hcs : ∀ s ∈ call_stack, WFNum s)
    (chunk : Chunk) (cs2 : List StructuredScript)
    (h : find_next_chunk fuel cfg call_stack = some (chunk, cs2)) :
    sum_num chunk.scripts = 0 ∧ (∀ s ∈ chunk.scripts, WFNum s) ∧
    ∀ s ∈ cs2, WFNum s := by
  unfold find_next_chunk at h
  cases hg : greedy_loop cfg fuel ⟨call_stack, [], 0, 0, {}, 0⟩ with
  | none => simp only [hg] at h; exact absurd h (by simp)
  | some st =>
      simp only [hg] at h
      obtain ⟨g1, g2, g3, g4, g5, g6⟩ := greedy_loop_spec cfg fuel
        ⟨call_stack, [], 0, 0, {}, 0⟩ st rfl
        (fun hne => absurd rfl hne) (fun hne => absurd rfl hne) hcs
        (fun s hq => absurd hq (List.not_mem_nil s))
        (fun s hq => absurd hq (List.not_mem_nil s)) hg
      cases hu : chunker_undo fuel st.num st.undo_info st.call_stack with
      | none => simp only [hu] at h; exact absurd h (by simp)
      | some tr =>
          obtain ⟨kept, rlen, cs2x⟩ := tr
          simp only [hu, Option.some.injEq, Prod.mk.injEq] at h
          obtain ⟨hch, hcs2⟩ := h
          obtain ⟨c1, c2, c3⟩ := chunker_undo_spec fuel st.num st.undo_info
            st.call_stack g6 g4 (fun h0 => by by_contra hne; exact g3 hne h0)
            kept rlen cs2x hu
          subst hcs2
          subst hch
          refine ⟨?_, ?_, c3⟩
          · show sum_num (st.chunk_scripts ++ kept) = 0
            rw [sum_num_append, c1]
            omega
          · intro s hq
            rcases List.mem_append.mp hq with hq1 | hq2
            · exact g5 s hq1
            · exact c2 s hq2

theorem find_chunks_loop_spec (cfg : ChunkerCfg) :
    ∀ (fuel : Nat) (call_stack : List StructuredScript)
      (acc out : List Nat × List Chunk),
      (∀ s ∈ call_stack, WFNum s) →
      (∀ c ∈ acc.2, sum_num c.scripts = 0 ∧ ∀ s ∈ c.scripts, WFNum s) →
      find_chunks_loop cfg fuel call_stack acc = some out →
      ∀ c ∈ out.2, sum_num c.scripts = 0 ∧ ∀ s ∈ c.scripts, WFNum s := by
  intro fuel
  induction fuel with
  | zero => intro cs acc out _ _ h; simp [find_chunks_loop] at h
  | succ fuel ih =>
      intro cs acc out hcs hacc h
      cases cs with
      | nil =>
          simp only [find_chunks_loop, Option.some.injEq] at h
          subst h
          exact hacc
      | cons b rest =>
          simp only [find_chunks_loop] at h
          cases hf : find_next_chunk (fuel + 1) cfg (b :: rest) with
          | none => simp only [hf] at h; exact absurd h (by simp)
          | some pr =>
              obtain ⟨chunk, cs2⟩ := pr
              simp only [hf] at h
              by_cases hsz : chunk.size = 0
              · rw [if_pos hsz] at h
                exact absurd h (by simp)
              · rw [if_neg hsz] at h
                obtain ⟨f1, f2, f3⟩ := find_next_chunk_spec (fuel + 1) cfg
                  (b :: rest) hcs chunk cs2 hf
                refine ih cs2 (acc.1 ++ [chunk.size], acc.2 ++ [chunk]) out
                  f3 ?_ h
                intro c hc
                rcases List.mem_append.mp hc with hc1 | hc2
                · exact hacc c hc1
                · simp only [List.mem_singleton] at hc2
                  subst hc2
                  exact ⟨f1, f2⟩

theorem flatten_blocks_net :
    ∀ (fuel : Nat) (smap : List (Nat × StructuredScript)) (bl : List Block)
      (l : List Instr), (∀ p ∈ smap, WFNum p.2) →
      flatten_blocks fuel smap bl = some l →
      bns smap bl = some (net_ifs l) := by
  intro fuel
  induction fuel with
  | zero =>
      intro smap bl l hm h
      cases bl with
      | nil =>
          simp only [flatten_blocks, Option.some.injEq] at h
          subst h
          rfl
      | cons b rest => simp [flatten_blocks] at h
  | succ fuel ih =>
      intro smap bl l hm h
      cases bl with
      | nil =>
          simp only [flatten_blocks, Option.some.injEq] at h
          subst h
          rfl
      | cons b rest =>
          cases b with
          | script buf =>
              simp only [flatten_blocks, Option.map_eq_some'] at h
              obtain ⟨tail, htail, hl⟩ := h
              subst hl
              have h3 := ih smap rest tail hm htail
              simp [bns, block_num, h3, net_ifs_append]
          | call id =>
              cases hg : map_get id smap with
              | none => simp [flatten_blocks, hg] at h
              | some sub =>
                  simp only [flatten_blocks, hg] at h
                  cases hsub : flatten_blocks fuel sub.script_map sub.blocks with
                  | none => simp only [hsub] at h; exact absurd h (by simp)
                  | some instrs =>
                      simp only [hsub, Option.map_eq_some'] at h
                      obtain ⟨tail, htail, hl⟩ := h
                      subst hl
                      have hws : WFNum sub :=
                        hm (id, sub) (map_get_mem id smap sub hg)
                      have h1 := ih sub.script_map sub.blocks instrs
                        hws.map_mem hsub
                      rw [hws.bns_eq] at h1
                      have h3 := ih smap rest tail hm htail
                      simp [bns, block_num, hg, h3, net_ifs_append,
                        Option.some.inj h1]

theorem flatten_net {fuel : Nat} {s : StructuredScript} {l : List Instr}
    (hw : WFNum s) (h : flatten fuel s = some l) :
    net_ifs l = s.num_unclosed_ifs := by
  have h1 := flatten_blocks_net fuel s.script_map s.blocks l hw.map_mem h
  rw [hw.bns_eq] at h1
  exact (Option.some.inj h1).symm

theorem mapM_flatten_net (f : Nat) :
    ∀ (scripts : List StructuredScript) (ls : List (List Instr)),
      (∀ s ∈ scripts, WFNum s) →
      scripts.mapM (flatten f) = some ls →
      net_ifs ls.flatten = sum_num scripts := by
  intro scripts
  induction scripts with
  | nil =>
      intro ls _ h
      simp only [List.mapM_nil, Option.pure_def, Option.some.injEq] at h
      subst h
      rfl
  | cons s rest ih =>
      intro ls hw h
      rw [List.mapM_cons] at h
      cases hf : flatten f s with
      | none => rw [hf] at h; simp at h
      | some li =>
          rw [hf] at h
          cases hrest : rest.mapM (flatten f) with
          | none => rw [hrest] at h; simp at h
          | some tail =>
              rw [hrest] at h
              simp only [Option.pure_def, Option.bind_some,
                Option.bind_eq_bind, Option.some_bind,
                Option.some.injEq] at h
              subst h
              rw [List.flatten_cons, net_ifs_append, sum_num_cons,
                flatten_net (hw s (List.mem_cons_self _ _)) hf,
                ih tail (fun t ht => hw t (List.mem_cons_of_mem _ ht)) hrest]

/-- Fueled boolean counterpart of `WFNum` (fuel bounds the recursion through
the script maps). -/
def wf_list_b : Nat → List StructuredScript → Bool
  | 0, _ => false
  | _ + 1, [] => true
  | fuel + 1, s :: rest =>
      decide (bns s.script_map s.blocks = some s.num_unclosed_ifs) &&
      decide (s.num_unclosed_ifs = (s.unclosed_if_positions.length : Int) -
        s.extra_endif_positions.length) &&
      wf_list_b fuel (s.script_map.map Prod.snd) &&
      wf_list_b fuel rest

def wf_num_b (fuel : Nat) (s : StructuredScript) : Bool := wf_list_b fuel [s]

theorem wf_list_b_sound :
    ∀ (fuel : Nat) (l : List StructuredScript),
      wf_list_b fuel l = true → ∀ s ∈ l, WFNum s := by
  intro fuel
  induction fuel with
  | zero => intro l h; simp [wf_list_b] at h
  | succ fuel ih =>
      intro l h s hs
      cases l with
      | nil => exact absurd hs (List.not_mem_nil s)
      | cons a rest =>
          simp only [wf_list_b, Bool.and_eq_true, decide_eq_true_eq] at h
          obtain ⟨⟨⟨h1, h2⟩, h3⟩, h4⟩ := h
          rcases List.mem_cons.mp hs with rfl | hs2
          · refine WFNum.intro _ h1 h2 ?_
            intro p hp
            exact ih _ h3 p.2 (List.mem_map_of_mem Prod.snd hp)
          · exact ih _ h4 s hs2

theorem wf_num_b_sound (fuel : Nat) (s : StructuredScript)
    (h : wf_num_b fuel s = true) : WFNum s :=
  wf_list_b_sound fuel [s] h s (List.mem_cons_self _ _)

/-- The witness script `script!{ {OP_1 OP_1} OP_IF {OP_1 OP_1} OP_ENDIF }`
(the repository's `test_chunker_ifs_1` input). -/
def c4_sub : StructuredScript :=
  push_script SS.new [Instr.op OP_PUSHNUM_1, Instr.op OP_PUSHNUM_1]

def c4_top : StructuredScript :=
  push_opcode
    (push_env_script (push_opcode (push_env_script SS.new c4_sub) OP_IF)
      c4_sub) OP_ENDIF

/-- **C4**: every chunk emitted by the chunker is conditional-balanced.  For
a top-level script whose stored conditional bookkeeping is consistent
(`WFNum`, the invariant the builder maintains), every chunk produced by
`find_chunks` has scripts whose `num_unclosed_ifs` sum to zero, and at the
instruction level every successful flattening of the chunk's scripts opens
exactly as many `OP_IF`/`OP_NOTIF` as it closes with `OP_ENDIF` (net zero).
The mandatory undo is built in: configurations the undo cannot balance make
`find_chunks` return `none` (the source's panics/asserts), so an unbalanced
chunk is never emitted. -/
theorem claim_C4 (fuel : Nat) (cfg : ChunkerCfg) (top : StructuredScript)
    (hwf : WFNum top) (sizes : List Nat) (chunks : List Chunk)
    (h : find_chunks fuel cfg top = some (sizes, chunks)) :
    ∀ c ∈ chunks, sum_num c.scripts = 0 ∧
      ∀ (f : Nat) (ls : List (List Instr)),
        c.scripts.mapM (flatten f) = some ls → net_ifs ls.flatten = 0 := by
  intro c hc
  have hall := find_chunks_loop_spec cfg fuel [top] ([], []) (sizes, chunks)
    (by intro s hs; rw [List.mem_singleton] at hs; exact hs ▸ hwf)
    (by intro c0 hc0; exact absurd hc0 (List.not_mem_nil c0)) h
  obtain ⟨h1, h2⟩ := hall c hc
  refine ⟨h1, fun f ls hm => ?_⟩
  rw [mapM_flatten_net f c.scripts ls h2 hm, h1]

theorem claim_C4_witness :
    ((find_chunks 20 ⟨5, 1000⟩ c4_top).map fun p =>
        p.2.all fun c => decide (sum_num c.scripts = 0)) = some true := by
  have hsome : (find_chunks 20 ⟨5, 1000⟩ c4_top).isSome = true := by decide
  cases hfc : find_chunks 20 ⟨5, 1000⟩ c4_top with
  | none => rw [hfc] at hsome; simp at hsome
  | some p =>
      have h := claim_C4 20 ⟨5, 1000⟩ c4_top
        (wf_num_b_sound 5 c4_top (by decide)) p.1 p.2 (by rw [hfc])
      simp only [Option.map_some', Option.some.injEq]
      rw [List.all_eq_true]
      intro c hc
      exact decide_eq_true (h c hc).1

end BitVMScript
